import Mathlib

/-
Verification of the BPE tokenizer trainer (src/main.py and src/bpe.py).

Modelling conventions (shallow embedding):
- A Python `str` is modelled as `Frag := List Char`; a tuple of strings
  (the working token representation inside `bpe` / `_bpe_fast` in main.py)
  is `Tok := List Frag`.
- Python `dict`s built by insertion (the pair-occurrence index of
  `_get_pairs`, `collections.Counter`) are modelled as association lists in
  insertion order; `set`s of indices are lists of distinct indices in
  insertion (= ascending) order, so `len` of the set is the list length.
- `max(items, key=...)` (and `Counter.most_common(1)`, which CPython
  implements via `heapq.nlargest(1)` = `max`) returns the first item
  attaining the maximal key in iteration order; it is modelled as a left
  fold that replaces the current best only on a strictly larger key.
- Python sets of vocabulary strings are modelled as `Finset Frag`.
- The `assert` in bpe.py's `bpe` (AssertionError naming the offending
  token) is modelled with `Except Frag`, the error value being the
  offending fragment.
- float division in `_frequency_table` is modelled exactly in `ℚ`.
-/

abbrev Frag : Type := List Char

abbrev Tok : Type := List Frag

/-- Association-list lookup (first entry with the given key), modelling
Python dict lookup for dicts represented as insertion-ordered entry lists. -/
def alook {α β : Type} [DecidableEq α] (a : α) : List (α × β) → Option β
  | [] => none
  | e :: rest => if e.1 = a then some e.2 else alook a rest

/-- Number of occurrences of an element in a list. -/
def cnt {α : Type} [DecidableEq α] (a : α) : List α → Nat
  | [] => 0
  | b :: rest => (if b = a then 1 else 0) + cnt a rest

/-- Index of the first occurrence of an element in a list
(length of the list if absent). -/
def firstIdx {α : Type} [DecidableEq α] (a : α) : List α → Nat
  | [] => 0
  | b :: rest => if b = a then 0 else firstIdx a rest + 1

/-- The ascending list of positions (starting at `i`) at which `a` occurs
in `l`.  This is the reference description of the occurrence sets stored by
`_get_pairs`. -/
def occsFrom {α : Type} [DecidableEq α] (a : α) : List α → Nat → List Nat
  | [], _ => []
  | b :: rest, i =>
    if b = a then i :: occsFrom a rest (i + 1) else occsFrom a rest (i + 1)

/-- One update of the pair-occurrence index: `pairs.setdefault(p, set()).add(i)`
(src/main.py, `_get_pairs`, lines 83-85).  A new key is appended at the end,
matching dict insertion order. -/
def addOcc {α : Type} [DecidableEq α]
    : List (α × List Nat) → α → Nat → List (α × List Nat)
  | [], a, i => [(a, [i])]
  | e :: rest, a, i =>
    if e.1 = a then (e.1, e.2 ++ [i]) :: rest else e :: addOcc rest a i

/-- The index-building loop of `_get_pairs` (src/main.py, lines 80-86):
scan the listed items left to right starting at position `i`, adding each
to the accumulated index. -/
def indexPairs {α : Type} [DecidableEq α]
    : List α → Nat → List (α × List Nat) → List (α × List Nat)
  | [], _, acc => acc
  | a :: rest, i, acc => indexPairs rest (i + 1) (addOcc acc a i)

/-- One update of a Counter: `pair_counts[pair] += 1`
(src/bpe.py, `_reduce_tokens`, line 74). -/
def bump {α : Type} [DecidableEq α] : List (α × Nat) → α → List (α × Nat)
  | [], a => [(a, 1)]
  | e :: rest, a =>
    if e.1 = a then (e.1, e.2 + 1) :: rest else e :: bump rest a

/-- Helper for stating the `indexPairs` correctness lemma: extend an
optional occurrence list by a further list of occurrences. -/
def extOpt (o : Option (List Nat)) (ys : List Nat) : Option (List Nat) :=
  if o = none ∧ ys = [] then none else some (o.getD [] ++ ys)

/-- Helper for stating the Counter-fold correctness lemma: extend an
optional count by a further count. -/
def extCnt (o : Option Nat) (n : Nat) : Option Nat :=
  if o = none ∧ n = 0 then none else some (o.getD 0 + n)

instance {ε α : Type} [DecidableEq ε] [DecidableEq α] :
    DecidableEq (Except ε α) := fun x y =>
  match x, y with
  | .error a, .error b =>
    if h : a = b then isTrue (h ▸ rfl)
    else isFalse (fun hc => h (Except.error.inj hc))
  | .ok a, .ok b =>
    if h : a = b then isTrue (h ▸ rfl)
    else isFalse (fun hc => h (Except.ok.inj hc))
  | .error _, .ok _ => isFalse (fun hc => Except.noConfusion hc)
  | .ok _, .error _ => isFalse (fun hc => Except.noConfusion hc)

namespace Main

/-- Model of `_get_chars` (src/main.py, lines 18-22): the list of the text's
characters, each as a one-character string. -/
def getChars (text : List Char) : List Frag :=
  text.map (fun c => [c])

/-- Helper for `pySplit`: Python `str.split()` with no argument — split on
runs of whitespace, discarding empty words.  `cur` is the word currently
being accumulated. -/
def pySplitAux : List Char → List Char → List (List Char)
  | [], cur => if cur.isEmpty then [] else [cur]
  | c :: rest, cur =>
    if c.isWhitespace then
      if cur.isEmpty then pySplitAux rest [] else cur :: pySplitAux rest []
    else pySplitAux rest (cur ++ [c])

/-- Python `text.strip().split()` (src/main.py, line 31).  `split()` with no
argument already ignores leading/trailing whitespace, so `strip()` is a
no-op before it; we model the combination as whitespace-run splitting that
discards empty words.  (Python `str.isspace` is approximated by
`Char.isWhitespace`.) -/
def pySplit (text : List Char) : List (List Char) :=
  pySplitAux text []

/-- Model of `_get_word_boundary_tokens` (src/main.py, lines 25-34): for each word,
a marker fragment `'▁'` followed by the word's characters. -/
def getWordBoundaryTokens (text : List Char) : List Frag :=
  ((pySplit text).map (fun w => (['▁'] : Frag) :: w.map (fun c => [c]))).flatten

/-- Model of `s.startswith('▁')` for a Python string `s`. -/
def startsWithMarker (s : Frag) : Bool :=
  match s with
  | c :: _ => c = '▁'
  | [] => false

/-- Model of `t[0].startswith('▁')` for a token tuple `t` (src/main.py, lines 105 and
155).  Token tuples are never empty in any reachable state (they start as
one-element tuples and only grow by concatenation); on the unreachable empty
tuple, where Python would raise IndexError, we return `false`. -/
def tokStartsMarker (t : Tok) : Bool :=
  match t with
  | s :: _ => startsWithMarker s
  | [] => false

/-- Model of `_get_pairs` (src/main.py, lines 78-86): map each adjacent pair of
tokens to the set of left-edge positions at which it occurs, keys in
insertion (= first-occurrence) order. -/
def getPairs (ts : List Tok) : List ((Tok × Tok) × List Nat) :=
  indexPairs (ts.zip ts.tail) 0 []

/-- The filter condition of the word-mode dict comprehension
(src/main.py, lines 154-155 and 104-105):
`not (pair[0][0].startswith('▁') and pair[1][0].startswith('▁'))
 and not pair[1][0].startswith('▁')`. -/
def pairAllowedW (p : Tok × Tok) : Bool :=
  (!(tokStartsMarker p.1 && tokStartsMarker p.2)) && (!tokStartsMarker p.2)

/-- The word-mode `filtered_pairs` dict comprehension in `bpe`
(src/main.py, lines 154-155); comprehension preserves insertion order. -/
def filterPairsW (ps : List ((Tok × Tok) × List Nat))
    : List ((Tok × Tok) × List Nat) :=
  ps.filter (fun e => pairAllowedW e.1)

/-- Model of `max(pairs.items(), key=lambda x: len(x[1]))` in `bpe`
(src/main.py, lines 158 and 161): first item attaining the maximal
occurrence-set size, in insertion order. -/
def bestOf (e : (Tok × Tok) × List Nat) (rest : List ((Tok × Tok) × List Nat))
    : (Tok × Tok) × List Nat :=
  rest.foldl (fun best x => if best.2.length < x.2.length then x else best) e

/-- The pair-selection part of one iteration of the merge loop in `bpe`
(src/main.py, lines 150-162): `none` models the `break`s on an empty
index / empty filtered index; otherwise the selected pair and its count. -/
def selectPair (mode : Frag) (ts : List Tok) : Option ((Tok × Tok) × Nat) :=
  match getPairs ts with
  | [] => none
  | e :: rest =>
    if mode = ['w'] then
      match filterPairsW (e :: rest) with
      | [] => none
      | f :: frest => some ((bestOf f frest).1, (bestOf f frest).2.length)
    else some ((bestOf e rest).1, (bestOf e rest).2.length)

/-- The merge pass of `bpe` (src/main.py, lines 165-174): replace each
non-overlapping occurrence of `p`, scanning left to right. -/
def mergePair (p : Tok × Tok) : List Tok → List Tok
  | t1 :: t2 :: rest =>
    if (t1, t2) = p then (t1 ++ t2) :: mergePair p rest
    else t1 :: mergePair p (t2 :: rest)
  | l => l

/-- One iteration of the merge loop in `bpe` (src/main.py, lines 149-175):
`none` models the `break`s (empty index, empty filtered index, or best
count below 2); otherwise the selected pair and the rewritten sequence. -/
def step (mode : Frag) (ts : List Tok) : Option ((Tok × Tok) × List Tok) :=
  match selectPair mode ts with
  | none => none
  | some (bp, c) => if c < 2 then none else some (bp, mergePair bp ts)

/-- The merge loop of `bpe` (src/main.py, lines 149-175), driven by the
remaining step budget; returns the number of steps actually completed
(the final value of the loop counter `step`) with the final sequence. -/
def loop (mode : Frag) : Nat → List Tok → Nat × List Tok
  | 0, ts => (0, ts)
  | k + 1, ts =>
    match step mode ts with
    | none => (0, ts)
    | some (_, ts') =>
      let r := loop mode k ts'
      (r.1 + 1, r.2)

/-- Stable descending insertion by count, modelling Python's stable
`sorted(..., key=lambda item: item[1], reverse=True)`: the inserted entry
(which precedes the already-sorted tail in the original order) moves past
an entry only when that entry's count is strictly larger, so entries with
equal counts keep their original relative order. -/
def insertDesc (x : Frag × Nat) : List (Frag × Nat) → List (Frag × Nat)
  | [] => [x]
  | y :: rest => if x.2 < y.2 then y :: insertDesc x rest else x :: y :: rest

/-- Stable descending sort by count (see `insertDesc`). -/
def sortDesc : List (Frag × Nat) → List (Frag × Nat)
  | [] => []
  | x :: rest => insertDesc x (sortDesc rest)

/-- The counting part of `_get_frequency_table` (src/main.py, lines 41-43):
a defaultdict in insertion order. -/
def countTokens (toks : List Frag) : List (Frag × Nat) :=
  toks.foldl bump []

/-- Model of `_get_frequency_table` (src/main.py, lines 37-44). -/
def getFrequencyTable (toks : List Frag) : List (Frag × Nat) :=
  sortDesc (countTokens toks)

/-- Model of `bpe` (src/main.py, lines 131-180).  The tqdm progress bar is pure
output and is omitted. -/
def bpe (text : List Char) (k : Nat) (mode : Frag) (normalize : Bool)
    : List (Frag × Nat) × List Frag :=
  let text' := if normalize then text.map Char.toLower else text
  let tokens := if mode = ['w'] then getWordBoundaryTokens text'
                else getChars text'
  let r := loop mode k (tokens.map (fun t => ([t] : Tok)))
  let toks := r.2.map (fun t => t.flatten)
  (getFrequencyTable toks, toks)

/-- The initial word-mode token-tuple sequence of `bpe`
(src/main.py, lines 142 and 146). -/
def initW (text : List Char) : List Tok :=
  (getWordBoundaryTokens text).map (fun t => ([t] : Tok))

end Main

namespace Fast

/-- The word-mode `filtered_pairs` dict comprehension in `_bpe_fast`
(src/main.py, lines 104-105). -/
def filterPairsW (ps : List ((Tok × Tok) × List Nat))
    : List ((Tok × Tok) × List Nat) :=
  ps.filter (fun e => Main.pairAllowedW e.1)

/-- Model of `max(pairs.items(), key=lambda x: len(x[1]))` in `_bpe_fast`
(src/main.py, lines 108 and 111). -/
def bestOf (e : (Tok × Tok) × List Nat) (rest : List ((Tok × Tok) × List Nat))
    : (Tok × Tok) × List Nat :=
  rest.foldl (fun best x => if best.2.length < x.2.length then x else best) e

/-- The pair-selection part of one iteration of `_bpe_fast`
(src/main.py, lines 99-112); `_bpe_fast` calls the same `_get_pairs` as
`bpe`. -/
def selectPair (mode : Frag) (ts : List Tok) : Option ((Tok × Tok) × Nat) :=
  match Main.getPairs ts with
  | [] => none
  | e :: rest =>
    if mode = ['w'] then
      match filterPairsW (e :: rest) with
      | [] => none
      | f :: frest => some ((bestOf f frest).1, (bestOf f frest).2.length)
    else some ((bestOf e rest).1, (bestOf e rest).2.length)

/-- The merge pass of `_bpe_fast` (src/main.py, lines 116-125). -/
def mergePair (p : Tok × Tok) : List Tok → List Tok
  | t1 :: t2 :: rest =>
    if (t1, t2) = p then (t1 ++ t2) :: mergePair p rest
    else t1 :: mergePair p (t2 :: rest)
  | l => l

/-- One iteration of the loop of `_bpe_fast` (src/main.py, lines 98-126). -/
def step (mode : Frag) (ts : List Tok) : Option ((Tok × Tok) × List Tok) :=
  match selectPair mode ts with
  | none => none
  | some (bp, c) => if c < 2 then none else some (bp, mergePair bp ts)

/-- The loop of `_bpe_fast` (src/main.py, lines 96-126). -/
def loop (mode : Frag) : Nat → List Tok → Nat × List Tok
  | 0, ts => (0, ts)
  | k + 1, ts =>
    match step mode ts with
    | none => (0, ts)
    | some (_, ts') =>
      let r := loop mode k ts'
      (r.1 + 1, r.2)

/-- Model of `_bpe_fast` (src/main.py, lines 89-128): wrap tokens into one-element
tuples, run the loop, flatten the tuples back to strings. -/
def bpeFast (tokens : List Frag) (k : Nat) (mode : Frag) : List Frag :=
  ((loop mode k (tokens.map (fun t => ([t] : Tok)))).2).map (fun t => t.flatten)

end Fast

namespace B

/-- Python's `\w` word character (`re.split(r"\W+", s)` splits on runs of
non-word characters).  Unicode word characters beyond ASCII alphanumerics
are approximated by `Char.isAlphanum`. -/
def isWordChar (c : Char) : Bool :=
  c.isAlphanum || c = '_'

/-- Helper for `splitWords`: `some cur` means a chunk `cur` is being
accumulated; `none` means the scan is inside a run of separator (non-word)
characters, which separates exactly one pair of chunks however long it is.
Like `re.split`, empty chunks at the edges are kept. -/
def splitWordsAux : List Char → Option (List Char) → List (List Char)
  | [], some cur => [cur]
  | [], none => [[]]
  | c :: rest, some cur =>
    if isWordChar c then splitWordsAux rest (some (cur ++ [c]))
    else cur :: splitWordsAux rest none
  | c :: rest, none =>
    if isWordChar c then splitWordsAux rest (some [c])
    else splitWordsAux rest none

/-- Model of `_split_words` (src/bpe.py, lines 18-32): `re.split(r"\W+", s)`. -/
def splitWords (s : List Char) : List (List Char) :=
  splitWordsAux s (some [])

/-- Model of `_split_chars` (src/bpe.py, lines 35-50): each word as the list of its
characters (as one-character strings), with empty words filtered out. -/
def splitChars (words : List (List Char)) : List (List Frag) :=
  (words.map (fun w => w.map (fun c => ([c] : Frag)))).filter
    (fun xs => 0 < xs.length)

/-- The adjacent concatenated pairs of one word, in scan order
(src/bpe.py, lines 72-74: `pair = word[i] + word[i + 1]`). -/
def wordPairs (w : List Frag) : List Frag :=
  (w.zip w.tail).map (fun q => q.1 ++ q.2)

/-- The Counter built by the nested counting loops of `_reduce_tokens`
(src/bpe.py, lines 70-74), as an insertion-ordered association list. -/
def pairCounts (tokens : List (List Frag)) : List (Frag × Nat) :=
  tokens.foldl (fun acc w => (wordPairs w).foldl bump acc) []

/-- Model of `pair_counts.most_common(1)[0]` (src/bpe.py, line 79): the first entry
attaining the maximal count, in insertion order (`heapq.nlargest(1)` is
`max` over the items). -/
def mostCommon1 : List (Frag × Nat) → Option (Frag × Nat)
  | [] => none
  | e :: rest =>
    some (rest.foldl (fun best x => if best.2 < x.2 then x else best) e)

/-- The per-word merge pass of `_reduce_tokens` (src/bpe.py, lines 85-94):
merge each adjacent pair whose concatenation equals the replacement token,
scanning left to right. -/
def mergeWord (tok : Frag) : List Frag → List Frag
  | x :: y :: rest =>
    if x ++ y = tok then tok :: mergeWord tok rest
    else x :: mergeWord tok (y :: rest)
  | l => l

/-- Model of `_reduce_tokens` (src/bpe.py, lines 53-96). -/
def reduceTokens (tokens : List (List Frag))
    : Bool × Frag × List (List Frag) :=
  match mostCommon1 (pairCounts tokens) with
  | none => (false, [], tokens)
  | some (tok, freq) =>
    if freq < 2 then (false, [], tokens)
    else (true, tok, tokens.map (mergeWord tok))

/-- Model of `_frequency_table` (src/bpe.py, lines 99-128), modelled as the lookup
function of the produced dict (whose domain is `vocab`); `relative`
division is exact in `ℚ`.  On an empty flattened sequence with
`relative = true` Python would raise ZeroDivisionError; `ℚ` division by
zero returns 0 there. -/
def frequencyTable (vocab : Finset Frag) (tokens : List (List Frag))
    (relative : Bool) : Frag → ℚ :=
  fun tok =>
    let flattened := tokens.flatten
    let n := flattened.length
    if relative then (cnt tok flattened : ℚ) / (n : ℚ)
    else (cnt tok flattened : ℚ)

/-- The vocabulary seeding loop of `bpe` (src/bpe.py, lines 154-160). -/
def seedVocab (tokens : List (List Frag)) : Finset Frag :=
  tokens.foldl (fun v w => w.foldl (fun v' c => insert c v') v) ∅

/-- The training loop of `bpe` (src/bpe.py, lines 162-172): at most the
given number of steps; halts early (still successfully) when
`_reduce_tokens` reports no eligible merge, reporting the number of steps
completed; aborts with the offending fragment when the assertion
`new_token not in vocab` fails. -/
def loopB : Nat → Finset Frag → List (List Frag)
    → Except Frag (Finset Frag × List (List Frag) × Nat)
  | 0, v, ts => .ok (v, ts, 0)
  | k + 1, v, ts =>
    match reduceTokens ts with
    | (false, _, _) => .ok (v, ts, 0)
    | (true, tok, ts') =>
      if tok ∈ v then .error tok
      else
        match loopB k (insert tok v) ts' with
        | .ok (v', fin, s) => .ok (v', fin, s + 1)
        | .error f => .error f

/-- Model of `bpe` (src/bpe.py, lines 131-176); the tqdm bar and the warning log are
pure output and omitted (the completed-step count carried by `loopB` is
what the warning reports). -/
def bpeB (text : List Char) (nsteps : Nat) (relative : Bool)
    : Except Frag (Finset Frag × List (List Frag) × (Frag → ℚ)) :=
  let words := splitWords text
  let tokens := splitChars words
  let vocab := seedVocab tokens
  match loopB nsteps vocab tokens with
  | .error f => .error f
  | .ok (v, ts, _) => .ok (v, ts, frequencyTable v ts relative)

/-- Total number of tokens across all words of a bpe.py token state. -/
def totalLen (tokens : List (List Frag)) : Nat :=
  (tokens.map List.length).sum

end B

/-- The atomic-fragment block contributed to the initial word-mode sequence
by one word: the boundary marker followed by the word's characters
(src/main.py, lines 30-34). -/
def blockOf (w : List Char) : List Frag :=
  (['▁'] : Frag) :: w.map (fun c => ([c] : Frag))

/-- Invariant of the word-mode merge loop: the token sequence splits into
consecutive groups of tokens, one group per word, each group flattening to
that word's block, and every token is a nonempty tuple. -/
def Chunked (ws : List (List Char)) (ts : List Tok) : Prop :=
  ∃ gss : List (List Tok),
    ts = gss.flatten ∧
    List.Forall₂ (fun g b => g.flatten = blockOf b) gss ws ∧
    ∀ t ∈ ts, t ≠ ([] : Tok)

/-
Part 2: helper lemmas.
-/

theorem cnt_pos_iff_mem {α : Type} [DecidableEq α] (a : α) (l : List α) :
    0 < cnt a l ↔ a ∈ l := by
  induction l with
  | nil => simp [cnt]
  | cons b rest ih =>
    by_cases h : b = a
    · subst h; simp [cnt]
    · simp [cnt, h, ih, Ne.symm h]

theorem cnt_le_length {α : Type} [DecidableEq α] (a : α) (l : List α) :
    cnt a l ≤ l.length := by
  induction l with
  | nil => simp [cnt]
  | cons b rest ih =>
    by_cases h : b = a <;> simp [cnt, h] <;> omega

theorem cnt_append {α : Type} [DecidableEq α] (a : α) (l1 l2 : List α) :
    cnt a (l1 ++ l2) = cnt a l1 + cnt a l2 := by
  induction l1 with
  | nil => simp [cnt]
  | cons b rest ih => by_cases h : b = a <;> simp [cnt, h, ih] <;> omega

theorem occsFrom_length {α : Type} [DecidableEq α] (a : α) (l : List α) :
    ∀ i, (occsFrom a l i).length = cnt a l := by
  induction l with
  | nil => intro i; simp [occsFrom, cnt]
  | cons b rest ih =>
    intro i
    by_cases h : b = a <;> simp [occsFrom, cnt, h, ih] <;> omega

theorem occsFrom_eq_nil_iff {α : Type} [DecidableEq α] (a : α) (l : List α)
    (i : Nat) : occsFrom a l i = [] ↔ cnt a l = 0 := by
  constructor
  · intro h
    have := occsFrom_length a l i
    rw [h] at this
    simpa using this.symm
  · intro h
    have := occsFrom_length a l i
    rw [h] at this
    exact List.length_eq_zero.mp this

theorem occsFrom_headI {α : Type} [DecidableEq α] (a : α) (l : List α) :
    ∀ i, a ∈ l → (occsFrom a l i).headI = i + firstIdx a l := by
  induction l with
  | nil => intro i h; simp at h
  | cons b rest ih =>
    intro i h
    by_cases hb : b = a
    · simp [occsFrom, firstIdx, hb]
    · have hmem : a ∈ rest := by
        rcases List.mem_cons.mp h with h1 | h1
        · exact absurd h1.symm hb
        · exact h1
      simp [occsFrom, firstIdx, hb, ih (i + 1) hmem]
      omega

theorem alook_addOcc {α : Type} [DecidableEq α] (acc : List (α × List Nat))
    (a b : α) (i : Nat) :
    alook b (addOcc acc a i) =
      if b = a then some ((alook a acc).getD [] ++ [i]) else alook b acc := by
  induction acc with
  | nil =>
    by_cases h : b = a <;> simp [addOcc, alook, h, Ne.symm]
  | cons e rest ih =>
    by_cases he : e.1 = a
    · by_cases hb : b = a
      · subst hb; simp [addOcc, alook, he]
      · have hab : ¬a = b := fun h => hb h.symm
        simp [addOcc, alook, he, hb, hab]
    · by_cases hb : b = a
      · subst hb
        simp [addOcc, alook, he, ih]
      · by_cases hbe : e.1 = b <;> simp [addOcc, alook, he, hbe, ih, hb]

theorem indexPairs_alook {α : Type} [DecidableEq α] (a : α) :
    ∀ (l : List α) (i : Nat) (acc : List (α × List Nat)),
      alook a (indexPairs l i acc) = extOpt (alook a acc) (occsFrom a l i) := by
  intro l
  induction l with
  | nil =>
    intro i acc
    cases h : alook a acc <;> simp [indexPairs, occsFrom, extOpt, h]
  | cons b rest ih =>
    intro i acc
    by_cases hb : b = a
    · subst hb
      rw [indexPairs, ih, alook_addOcc]
      simp only [if_pos rfl, occsFrom, if_pos rfl]
      cases h : alook b acc <;> simp [extOpt, h]
    · have hab : ¬a = b := fun h => hb h.symm
      rw [indexPairs, ih, alook_addOcc]
      simp [hb, hab, occsFrom]

theorem map_fst_addOcc {α : Type} [DecidableEq α] (acc : List (α × List Nat))
    (a : α) (i : Nat) :
    (addOcc acc a i).map Prod.fst =
      if a ∈ acc.map Prod.fst then acc.map Prod.fst
      else acc.map Prod.fst ++ [a] := by
  induction acc with
  | nil => simp [addOcc]
  | cons e rest ih =>
    by_cases he : e.1 = a
    · simp [addOcc, he]
    · have hab : ¬a = e.1 := fun h => he h.symm
      simp [addOcc, he, ih, hab]
      by_cases hm : a ∈ rest.map Prod.fst <;> simp [hm, hab]

theorem nodup_map_fst_addOcc {α : Type} [DecidableEq α]
    (acc : List (α × List Nat)) (a : α) (i : Nat)
    (h : (acc.map Prod.fst).Nodup) : ((addOcc acc a i).map Prod.fst).Nodup := by
  rw [map_fst_addOcc]
  by_cases hm : a ∈ acc.map Prod.fst
  · simpa [hm] using h
  · simp only [hm, if_false]
    rw [List.nodup_append]
    exact ⟨h, List.nodup_singleton a, by simpa using hm⟩

theorem nodup_map_fst_indexPairs {α : Type} [DecidableEq α] :
    ∀ (l : List α) (i : Nat) (acc : List (α × List Nat)),
      (acc.map Prod.fst).Nodup → ((indexPairs l i acc).map Prod.fst).Nodup := by
  intro l
  induction l with
  | nil => intro i acc h; simpa [indexPairs] using h
  | cons b rest ih =>
    intro i acc h
    exact ih (i + 1) _ (nodup_map_fst_addOcc acc b i h)

theorem alook_of_mem {α β : Type} [DecidableEq α] :
    ∀ (A : List (α × β)) (a : α) (v : β),
      (A.map Prod.fst).Nodup → (a, v) ∈ A → alook a A = some v := by
  intro A
  induction A with
  | nil => intro a v _ h; simp at h
  | cons e rest ih =>
    intro a v hnd hmem
    rcases List.mem_cons.mp hmem with h1 | h1
    · rw [← h1]; simp [alook]
    · have hne : e.1 ≠ a := by
        intro hcontra
        have : a ∈ rest.map Prod.fst := by
          exact List.mem_map.mpr ⟨(a, v), h1, rfl⟩
        rw [List.map_cons, List.nodup_cons] at hnd
        exact hnd.1 (hcontra ▸ this)
      simp only [alook, hne, if_false]
      rw [List.map_cons, List.nodup_cons] at hnd
      exact ih a v hnd.2 h1

theorem mem_of_alook {α β : Type} [DecidableEq α] :
    ∀ (A : List (α × β)) (a : α) (v : β),
      alook a A = some v → (a, v) ∈ A := by
  intro A
  induction A with
  | nil => intro a v h; simp [alook] at h
  | cons e rest ih =>
    intro a v h
    by_cases he : e.1 = a
    · simp only [alook, he, if_pos rfl] at h
      have hv := Option.some.inj h
      refine List.mem_cons.mpr (Or.inl ?_)
      rw [← he, ← hv]
    · simp only [alook, he, if_false] at h
      exact List.mem_cons_of_mem _ (ih a v h)

theorem getPairs_alook (ts : List Tok) (p : Tok × Tok) :
    alook p (Main.getPairs ts) =
      extOpt none (occsFrom p (ts.zip ts.tail) 0) := by
  rw [Main.getPairs, indexPairs_alook]
  rfl

theorem getPairs_nodup_keys (ts : List Tok) :
    ((Main.getPairs ts).map Prod.fst).Nodup := by
  exact nodup_map_fst_indexPairs _ 0 [] (by simp)

theorem getPairs_entry (ts : List Tok) (e : (Tok × Tok) × List Nat)
    (h : e ∈ Main.getPairs ts) :
    e.2 = occsFrom e.1 (ts.zip ts.tail) 0 ∧ e.2 ≠ [] := by
  have hl : alook e.1 (Main.getPairs ts) = some e.2 :=
    alook_of_mem _ e.1 e.2 (getPairs_nodup_keys ts) (by simpa using h)
  rw [getPairs_alook] at hl
  by_cases hocc : occsFrom e.1 (ts.zip ts.tail) 0 = []
  · simp [extOpt, hocc] at hl
  · simp [extOpt, hocc] at hl
    exact ⟨hl.symm, hl ▸ hocc⟩

theorem headI_append {α : Type} [Inhabited α] (l l' : List α) (h : l ≠ []) :
    (l ++ l').headI = l.headI := by
  cases l with
  | nil => exact absurd rfl h
  | cons a rest => rfl

theorem addOcc_mem_heads {α : Type} [DecidableEq α] :
    ∀ (acc : List (α × List Nat)) (a : α) (i : Nat),
      (∀ x ∈ acc, x.2 ≠ []) →
      ∀ e ∈ addOcc acc a i,
        e.2.headI = i ∨ ∃ x ∈ acc, e.2.headI = x.2.headI := by
  intro acc
  induction acc with
  | nil =>
    intro a i _ e he
    simp [addOcc] at he
    subst he
    left
    rfl
  | cons x rest ih =>
    intro a i hne e he
    by_cases hx : x.1 = a
    · simp only [addOcc, hx, if_pos rfl] at he
      rcases List.mem_cons.mp he with h1 | h1
      · right
        refine ⟨x, List.mem_cons_self _ _, ?_⟩
        rw [h1]
        exact headI_append _ _ (hne x (List.mem_cons_self _ _))
      · right
        exact ⟨e, List.mem_cons_of_mem _ h1, rfl⟩
    · simp only [addOcc, hx, if_false] at he
      rcases List.mem_cons.mp he with h1 | h1
      · right
        exact ⟨x, List.mem_cons_self _ _, by rw [h1]⟩
      · rcases ih a i (fun y hy => hne y (List.mem_cons_of_mem _ hy)) e h1 with
          h2 | ⟨y, hy, h2⟩
        · left; exact h2
        · right; exact ⟨y, List.mem_cons_of_mem _ hy, h2⟩

theorem addOcc_inv {α : Type} [DecidableEq α] :
    ∀ (acc : List (α × List Nat)) (a : α) (i : Nat),
      (∀ e ∈ acc, e.2 ≠ []) →
      (∀ e ∈ acc, e.2.headI < i) →
      acc.Pairwise (fun e1 e2 => e1.2.headI < e2.2.headI) →
      (∀ e ∈ addOcc acc a i, e.2 ≠ []) ∧
        (∀ e ∈ addOcc acc a i, e.2.headI < i + 1) ∧
        (addOcc acc a i).Pairwise (fun e1 e2 => e1.2.headI < e2.2.headI) := by
  intro acc
  induction acc with
  | nil =>
    intro a i _ _ _
    refine ⟨?_, ?_, ?_⟩ <;> simp [addOcc]
  | cons x rest ih =>
    intro a i hne hlt hpw
    have hxne : x.2 ≠ [] := hne x (List.mem_cons_self _ _)
    have hxlt : x.2.headI < i := hlt x (List.mem_cons_self _ _)
    have hne' : ∀ e ∈ rest, e.2 ≠ [] := fun e he => hne e (List.mem_cons_of_mem _ he)
    have hlt' : ∀ e ∈ rest, e.2.headI < i := fun e he => hlt e (List.mem_cons_of_mem _ he)
    rw [List.pairwise_cons] at hpw
    by_cases hx : x.1 = a
    · have hred : addOcc (x :: rest) a i = (x.1, x.2 ++ [i]) :: rest := by
        simp [addOcc, hx]
      rw [hred]
      have hhead : (x.2 ++ [i]).headI = x.2.headI := headI_append _ _ hxne
      refine ⟨?_, ?_, ?_⟩
      · intro e he
        rcases List.mem_cons.mp he with h1 | h1
        · rw [h1]; simp
        · exact hne' e h1
      · intro e he
        rcases List.mem_cons.mp he with h1 | h1
        · rw [h1]; simpa [hhead] using Nat.lt_succ_of_lt hxlt
        · exact Nat.lt_succ_of_lt (hlt' e h1)
      · rw [List.pairwise_cons]
        refine ⟨?_, hpw.2⟩
        intro e he
        simpa [hhead] using hpw.1 e he
    · have hred : addOcc (x :: rest) a i = x :: addOcc rest a i := by
        simp [addOcc, hx]
      rw [hred]
      obtain ⟨ihne, ihlt, ihpw⟩ := ih a i hne' hlt' hpw.2
      refine ⟨?_, ?_, ?_⟩
      · intro e he
        rcases List.mem_cons.mp he with h1 | h1
        · rw [h1]; exact hxne
        · exact ihne e h1
      · intro e he
        rcases List.mem_cons.mp he with h1 | h1
        · rw [h1]; exact Nat.lt_succ_of_lt hxlt
        · exact ihlt e h1
      · rw [List.pairwise_cons]
        refine ⟨?_, ihpw⟩
        intro e he
        rcases addOcc_mem_heads rest a i hne' e he with h2 | ⟨y, hy, h2⟩
        · rw [h2]; exact hxlt
        · rw [h2]; exact hpw.1 y hy

theorem indexPairs_inv {α : Type} [DecidableEq α] :
    ∀ (l : List α) (i : Nat) (acc : List (α × List Nat)),
      (∀ e ∈ acc, e.2 ≠ []) →
      (∀ e ∈ acc, e.2.headI < i) →
      acc.Pairwise (fun e1 e2 => e1.2.headI < e2.2.headI) →
      (∀ e ∈ indexPairs l i acc, e.2 ≠ []) ∧
        (indexPairs l i acc).Pairwise (fun e1 e2 => e1.2.headI < e2.2.headI) := by
  intro l
  induction l with
  | nil =>
    intro i acc hne _ hpw
    exact ⟨by simpa [indexPairs] using hne, by simpa [indexPairs] using hpw⟩
  | cons b rest ih =>
    intro i acc hne hlt hpw
    obtain ⟨h1, h2, h3⟩ := addOcc_inv acc b i hne hlt hpw
    exact ih (i + 1) _ h1 h2 h3

theorem getPairs_pairwise (ts : List Tok) :
    (Main.getPairs ts).Pairwise (fun e1 e2 => e1.2.headI < e2.2.headI) := by
  exact (indexPairs_inv _ 0 [] (by simp) (by simp) (by simp)).2

theorem foldl_best_spec {α : Type} (m : α → Nat) (e r : α) (rest : List α)
    (hr : rest.foldl (fun best x => if m best < m x then x else best) e = r) :
    r ∈ e :: rest ∧ (∀ x ∈ e :: rest, m x ≤ m r) ∧
      ∃ l1 l2, e :: rest = l1 ++ r :: l2 ∧ ∀ x ∈ l1, m x < m r := by
  induction rest generalizing e with
  | nil =>
    simp only [List.foldl_nil] at hr
    subst hr
    exact ⟨List.mem_cons_self _ _, by simp, [], [], rfl, by simp⟩
  | cons x rest ih =>
    simp only [List.foldl_cons] at hr
    by_cases h : m e < m x
    · rw [if_pos h] at hr
      obtain ⟨hmem, hmax, l1, l2, hsplit, hpre⟩ := ih x hr
      have hxr : m x ≤ m r := hmax x (List.mem_cons_self _ _)
      refine ⟨List.mem_cons_of_mem _ hmem, ?_, e :: l1, l2, ?_, ?_⟩
      · intro y hy
        rcases List.mem_cons.mp hy with h1 | h1
        · rw [h1]; exact le_of_lt (lt_of_lt_of_le h hxr)
        · exact hmax y h1
      · rw [List.cons_append, ← hsplit]
      · intro y hy
        rcases List.mem_cons.mp hy with h1 | h1
        · rw [h1]; exact lt_of_lt_of_le h hxr
        · exact hpre y h1
    · rw [if_neg h] at hr
      obtain ⟨hmem, hmax, l1, l2, hsplit, hpre⟩ := ih e hr
      have hxe : m x ≤ m e := Nat.le_of_not_lt h
      have her : m e ≤ m r := hmax e (List.mem_cons_self _ _)
      refine ⟨?_, ?_, ?_⟩
      · rcases List.mem_cons.mp hmem with h1 | h1
        · rw [h1]; exact List.mem_cons_self _ _
        · exact List.mem_cons_of_mem _ (List.mem_cons_of_mem _ h1)
      · intro y hy
        rcases List.mem_cons.mp hy with h1 | h1
        · rw [h1]; exact her
        · rcases List.mem_cons.mp h1 with h2 | h2
          · rw [h2]; exact le_trans hxe her
          · exact hmax y (List.mem_cons_of_mem _ h2)
      · cases l1 with
        | nil =>
          simp only [List.nil_append] at hsplit
          have he := (List.cons.inj hsplit).1
          have hrest := (List.cons.inj hsplit).2
          exact ⟨[], x :: l2, by simp [he, hrest], by simp⟩
        | cons y l1' =>
          simp only [List.cons_append] at hsplit
          have hy := (List.cons.inj hsplit).1
          have hrest := (List.cons.inj hsplit).2
          have hey : m e < m r := by
            rw [hy]; exact hpre y (List.mem_cons_self _ _)
          refine ⟨e :: x :: l1', l2, ?_, ?_⟩
          · simp [hrest, List.cons_append]
          · intro z hz
            rcases List.mem_cons.mp hz with h1 | h1
            · rw [h1]; exact hey
            · rcases List.mem_cons.mp h1 with h2 | h2
              · rw [h2]; exact lt_of_le_of_lt hxe hey
              · exact hpre z (List.mem_cons_of_mem _ h2)

theorem alook_bump {α : Type} [DecidableEq α] (acc : List (α × Nat)) (a b : α) :
    alook b (bump acc a) =
      if b = a then some ((alook a acc).getD 0 + 1) else alook b acc := by
  induction acc with
  | nil =>
    by_cases h : b = a <;> simp [bump, alook, h]
    exact fun hc => absurd hc.symm h
  | cons e rest ih =>
    by_cases he : e.1 = a
    · by_cases hb : b = a
      · subst hb; simp [bump, alook, he]
      · have hab : ¬a = b := fun h => hb h.symm
        simp [bump, alook, he, hb, hab]
    · by_cases hb : b = a
      · subst hb
        simp [bump, alook, he, ih]
      · by_cases hbe : e.1 = b <;> simp [bump, alook, he, hbe, ih, hb]

theorem foldl_bump_alook {α : Type} [DecidableEq α] (a : α) :
    ∀ (l : List α) (acc : List (α × Nat)),
      alook a (l.foldl bump acc) = extCnt (alook a acc) (cnt a l) := by
  intro l
  induction l with
  | nil =>
    intro acc
    cases h : alook a acc <;> simp [cnt, extCnt, h]
  | cons b rest ih =>
    intro acc
    rw [List.foldl_cons, ih, alook_bump]
    by_cases hb : b = a
    · subst hb
      simp only [if_pos rfl, cnt, if_pos rfl]
      cases h : alook b acc <;> simp [extCnt, h] <;> omega
    · have hab : ¬a = b := fun h => hb h.symm
      simp [hab, hb, cnt]

theorem map_fst_bump {α : Type} [DecidableEq α] (acc : List (α × Nat)) (a : α) :
    (bump acc a).map Prod.fst =
      if a ∈ acc.map Prod.fst then acc.map Prod.fst
      else acc.map Prod.fst ++ [a] := by
  induction acc with
  | nil => simp [bump]
  | cons e rest ih =>
    by_cases he : e.1 = a
    · simp [bump, he]
    · have hab : ¬a = e.1 := fun h => he h.symm
      simp [bump, he, ih, hab]
      by_cases hm : a ∈ rest.map Prod.fst <;> simp [hm, hab]

theorem nodup_map_fst_bump {α : Type} [DecidableEq α] (acc : List (α × Nat))
    (a : α) (h : (acc.map Prod.fst).Nodup) : ((bump acc a).map Prod.fst).Nodup := by
  rw [map_fst_bump]
  by_cases hm : a ∈ acc.map Prod.fst
  · simpa [hm] using h
  · simp only [hm, if_false]
    rw [List.nodup_append]
    exact ⟨h, List.nodup_singleton a, by simpa using hm⟩

theorem nodup_foldl_bump {α : Type} [DecidableEq α] :
    ∀ (l : List α) (acc : List (α × Nat)),
      (acc.map Prod.fst).Nodup → ((l.foldl bump acc).map Prod.fst).Nodup := by
  intro l
  induction l with
  | nil => intro acc h; simpa using h
  | cons b rest ih =>
    intro acc h
    exact ih _ (nodup_map_fst_bump acc b h)

theorem extCnt_comp (o : Option Nat) (m n : Nat) :
    extCnt (extCnt o m) n = extCnt o (m + n) := by
  cases o with
  | some v => simp [extCnt, Nat.add_assoc]
  | none =>
    by_cases hm : m = 0
    · subst hm; simp [extCnt]
    · have hmn : ¬(m + n = 0) := by omega
      simp [extCnt, hm, hmn, Nat.add_assoc]

theorem pairCounts_foldl_alook (a : Frag) :
    ∀ (ws : List (List Frag)) (acc : List (Frag × Nat)),
      alook a (ws.foldl (fun acc' w => (B.wordPairs w).foldl bump acc') acc) =
        extCnt (alook a acc) (cnt a ((ws.map B.wordPairs).flatten)) := by
  intro ws
  induction ws with
  | nil =>
    intro acc
    cases h : alook a acc <;> simp [extCnt, h, cnt]
  | cons w rest ih =>
    intro acc
    rw [List.foldl_cons, ih, foldl_bump_alook, extCnt_comp]
    simp [cnt_append]

theorem pairCounts_alook (ts : List (List Frag)) (a : Frag) :
    alook a (B.pairCounts ts) =
      extCnt none (cnt a ((ts.map B.wordPairs).flatten)) := by
  rw [B.pairCounts, pairCounts_foldl_alook]
  rfl

theorem pairCounts_nodup_keys (ts : List (List Frag)) :
    ((B.pairCounts ts).map Prod.fst).Nodup := by
  rw [B.pairCounts]
  have : ∀ (ws : List (List Frag)) (acc : List (Frag × Nat)),
      (acc.map Prod.fst).Nodup →
      ((ws.foldl (fun acc' w => (B.wordPairs w).foldl bump acc') acc).map
        Prod.fst).Nodup := by
    intro ws
    induction ws with
    | nil => intro acc h; simpa using h
    | cons w rest ih =>
      intro acc h
      exact ih _ (nodup_foldl_bump _ acc h)
  exact this ts [] (by simp)

theorem pairCounts_entry (ts : List (List Frag)) (e : Frag × Nat)
    (h : e ∈ B.pairCounts ts) :
    e.2 = cnt e.1 ((ts.map B.wordPairs).flatten) ∧ 1 ≤ e.2 := by
  have hl : alook e.1 (B.pairCounts ts) = some e.2 :=
    alook_of_mem _ e.1 e.2 (pairCounts_nodup_keys ts) (by simpa using h)
  rw [pairCounts_alook] at hl
  by_cases hc : cnt e.1 ((ts.map B.wordPairs).flatten) = 0
  · simp [extCnt, hc] at hl
  · simp [extCnt, hc] at hl
    omega

theorem mergePair_length_le (p : Tok × Tok) (l : List Tok) :
    (Main.mergePair p l).length ≤ l.length := by
  induction l using Main.mergePair.induct p with
  | case1 t1 t2 rest h ih =>
    simp only [Main.mergePair, if_pos h, List.length_cons]
    omega
  | case2 t1 t2 rest h ih =>
    simp only [Main.mergePair, if_neg h, List.length_cons]
    simpa using ih
  | case3 l h => simp [Main.mergePair]

theorem mergePair_length_lt (p : Tok × Tok) (l : List Tok)
    (hmem : p ∈ l.zip l.tail) : (Main.mergePair p l).length < l.length := by
  induction l using Main.mergePair.induct p with
  | case1 t1 t2 rest h ih =>
    simp only [Main.mergePair, if_pos h, List.length_cons]
    have := mergePair_length_le p rest
    omega
  | case2 t1 t2 rest h ih =>
    simp only [Main.mergePair, if_neg h, List.length_cons]
    have hmem' : p ∈ (t2 :: rest).zip rest := by
      simp only [List.zip_cons_cons, List.tail_cons] at hmem
      rcases List.mem_cons.mp hmem with h1 | h1
      · exact absurd h1.symm h
      · cases rest with
        | nil => simp at h1
        | cons t3 rest' => simpa using h1
    have := ih hmem'
    simp only [List.length_cons] at this ⊢
    omega
  | case3 l h =>
    exfalso
    cases l with
    | nil => simp at hmem
    | cons t tail =>
      cases tail with
      | nil => simp at hmem
      | cons t2 rest => exact h t t2 rest rfl

theorem mergePair_flatten (p : Tok × Tok) (l : List Tok) :
    (Main.mergePair p l).flatten = l.flatten := by
  induction l using Main.mergePair.induct p with
  | case1 t1 t2 rest h ih => simp [Main.mergePair, if_pos h, ih]
  | case2 t1 t2 rest h ih => simp [Main.mergePair, if_neg h, ih]
  | case3 l h => simp [Main.mergePair]

theorem mergePair_ne_nil (p : Tok × Tok) (l : List Tok)
    (h0 : ∀ t ∈ l, t ≠ ([] : Tok)) :
    ∀ t ∈ Main.mergePair p l, t ≠ ([] : Tok) := by
  induction l using Main.mergePair.induct p with
  | case1 t1 t2 rest h ih =>
    intro t ht
    simp only [Main.mergePair, if_pos h] at ht
    rcases List.mem_cons.mp ht with h1 | h1
    · rw [h1]
      have h1' := h0 t1 (List.mem_cons_self _ _)
      simp only [ne_eq, List.append_eq_nil]
      intro hc
      exact h1' hc.1
    · exact ih (fun t' ht' => h0 t' (by simp [ht'])) t h1
  | case2 t1 t2 rest h ih =>
    intro t ht
    simp only [Main.mergePair, if_neg h] at ht
    rcases List.mem_cons.mp ht with h1 | h1
    · rw [h1]; exact h0 t1 (List.mem_cons_self _ _)
    · exact ih (fun t' ht' => h0 t' (by simp at ht' ⊢; tauto)) t h1
  | case3 l h =>
    intro t ht
    simp only [Main.mergePair] at ht
    exact h0 t ht

theorem mergePair_append (p : Tok × Tok) (xs ys : List Tok)
    (hy : ∀ t, ys.head? = some t → t ≠ p.2) :
    Main.mergePair p (xs ++ ys) =
      Main.mergePair p xs ++ Main.mergePair p ys := by
  induction xs using Main.mergePair.induct p with
  | case1 t1 t2 rest h ih =>
    simp only [List.cons_append, List.append_eq, Main.mergePair, if_pos h, ih]
  | case2 t1 t2 rest h ih =>
    simp only [List.cons_append] at ih
    simp only [List.cons_append, List.append_eq, Main.mergePair, if_neg h, ih]
  | case3 l h =>
    cases l with
    | nil => simp [Main.mergePair]
    | cons t tail =>
      cases tail with
      | cons t2 rest => exact absurd rfl (h t t2 rest)
      | nil =>
        cases ys with
        | nil => simp [Main.mergePair]
        | cons y ys' =>
          have hy' : y ≠ p.2 := hy y rfl
          have hne : (t, y) ≠ p := by
            intro hc
            exact hy' (by rw [← hc])
          simp [Main.mergePair, if_neg hne]

theorem mergePair_flatten_groups (p : Tok × Tok) :
    ∀ gss : List (List Tok),
      (∀ g ∈ gss, ∃ t0 g', g = t0 :: g' ∧ t0 ≠ p.2) →
      Main.mergePair p gss.flatten = (gss.map (Main.mergePair p)).flatten := by
  intro gss
  induction gss with
  | nil => intro _; simp [Main.mergePair]
  | cons g rest ih =>
    intro h
    have hhead : ∀ t, rest.flatten.head? = some t → t ≠ p.2 := by
      intro t ht
      cases rest with
      | nil => simp at ht
      | cons g2 rest' =>
        obtain ⟨t0, g', hg2, ht0⟩ := h g2 (by simp)
        rw [List.flatten_cons, hg2] at ht
        simp only [List.cons_append, List.head?_cons] at ht
        rw [← Option.some.inj ht]
        exact ht0
    rw [List.flatten_cons, mergePair_append p g rest.flatten hhead,
      List.map_cons, List.flatten_cons,
      ih (fun g' hg' => h g' (List.mem_cons_of_mem _ hg'))]

theorem mergeWord_length_le (tok : Frag) (w : List Frag) :
    (B.mergeWord tok w).length ≤ w.length := by
  induction w using B.mergeWord.induct tok with
  | case1 x y rest h ih =>
    simp only [B.mergeWord, if_pos h, List.length_cons]
    omega
  | case2 x y rest h ih =>
    simp only [B.mergeWord, if_neg h, List.length_cons]
    simp only [List.length_cons] at ih
    omega
  | case3 l h => simp [B.mergeWord]

theorem mergeWord_length_lt (tok : Frag) (w : List Frag)
    (hmem : tok ∈ B.wordPairs w) : (B.mergeWord tok w).length < w.length := by
  induction w using B.mergeWord.induct tok with
  | case1 x y rest h ih =>
    simp only [B.mergeWord, if_pos h, List.length_cons]
    have := mergeWord_length_le tok rest
    omega
  | case2 x y rest h ih =>
    simp only [B.mergeWord, if_neg h, List.length_cons]
    have hmem' : tok ∈ B.wordPairs (y :: rest) := by
      simp only [B.wordPairs, List.zip_cons_cons, List.tail_cons,
        List.map_cons] at hmem
      rcases List.mem_cons.mp hmem with h1 | h1
      · exact absurd h1.symm h
      · cases rest with
        | nil => simp at h1
        | cons z rest' => simpa [B.wordPairs] using h1
    have := ih hmem'
    simp only [List.length_cons] at this ⊢
    omega
  | case3 l h =>
    exfalso
    cases l with
    | nil => simp [B.wordPairs] at hmem
    | cons x tail =>
      cases tail with
      | nil => simp [B.wordPairs] at hmem
      | cons y rest => exact h x y rest rfl

theorem totalLen_lt (tok : Frag) :
    ∀ ws : List (List Frag), (∃ w ∈ ws, tok ∈ B.wordPairs w) →
      B.totalLen (ws.map (B.mergeWord tok)) < B.totalLen ws := by
  intro ws
  induction ws with
  | nil => intro h; simp at h
  | cons w rest ih =>
    intro h
    simp only [B.totalLen, List.map_cons, List.map_map, List.sum_cons]
    rcases h with ⟨w0, hw0, htok⟩
    rcases List.mem_cons.mp hw0 with h1 | h1
    · have hlt : (B.mergeWord tok w0).length < w0.length :=
        mergeWord_length_lt tok w0 htok
      rw [← h1]
      have hrest : B.totalLen (rest.map (B.mergeWord tok)) ≤ B.totalLen rest := by
        have : ∀ rs : List (List Frag),
            B.totalLen (rs.map (B.mergeWord tok)) ≤ B.totalLen rs := by
          intro rs
          induction rs with
          | nil => simp [B.totalLen]
          | cons r rs' ihr =>
            simp only [B.totalLen, List.map_cons, List.map_map,
              List.sum_cons] at ihr ⊢
            have := mergeWord_length_le tok r
            omega
        exact this rest
      simp only [B.totalLen, List.map_map] at hrest
      have hcomp : (List.length ∘ B.mergeWord tok) w0 = (B.mergeWord tok w0).length := rfl
      omega
    · have hlt := ih ⟨w0, h1, htok⟩
      simp only [B.totalLen, List.map_map] at hlt
      have := mergeWord_length_le tok w
      have hcomp : (List.length ∘ B.mergeWord tok) w = (B.mergeWord tok w).length := rfl
      omega

theorem alook_filter {α β : Type} [DecidableEq α] (f : α → Bool) :
    ∀ (A : List (α × β)) (a : α),
      alook a (A.filter (fun e => f e.1)) = if f a then alook a A else none := by
  intro A
  induction A with
  | nil => intro a; by_cases h : f a <;> simp [alook, h]
  | cons e rest ih =>
    intro a
    by_cases he : e.1 = a
    · subst he
      by_cases hf : f e.1 <;> simp [List.filter_cons, hf, alook, ih]
    · by_cases hf : f e.1 <;> simp [List.filter_cons, hf, alook, he, ih]

theorem selectPair_entry (mode : Frag) (ts : List Tok) (bp : Tok × Tok) (c : Nat)
    (h : Main.selectPair mode ts = some (bp, c)) :
    ∃ e ∈ Main.getPairs ts, e.1 = bp ∧ e.2.length = c ∧
      (mode = ['w'] → Main.pairAllowedW bp = true) := by
  cases hg : Main.getPairs ts with
  | nil => simp [Main.selectPair, hg] at h
  | cons e rest =>
    simp only [Main.selectPair, hg] at h
    by_cases hm : mode = ['w']
    · rw [if_pos hm] at h
      cases hf : Main.filterPairsW (e :: rest) with
      | nil => rw [hf] at h; simp at h
      | cons f frest =>
        rw [hf] at h
        simp only [Option.some.injEq, Prod.mk.injEq] at h
        obtain ⟨h1, h2⟩ := h
        obtain ⟨hmem, -, -⟩ :=
          foldl_best_spec (fun x : (Tok × Tok) × List Nat => x.2.length) f
            (Main.bestOf f frest) frest rfl
        rw [← hf] at hmem
        rw [Main.filterPairsW] at hmem
        have hmem' := List.mem_filter.mp hmem
        refine ⟨Main.bestOf f frest, ?_, h1, h2, fun _ => ?_⟩
        · exact hmem'.1
        · rw [← h1]; simpa using hmem'.2
    · rw [if_neg hm] at h
      simp only [Option.some.injEq, Prod.mk.injEq] at h
      obtain ⟨h1, h2⟩ := h
      obtain ⟨hmem, -, -⟩ :=
        foldl_best_spec (fun x : (Tok × Tok) × List Nat => x.2.length) e
          (Main.bestOf e rest) rest rfl
      exact ⟨Main.bestOf e rest, hmem, h1, h2, fun hw => absurd hw hm⟩

theorem selectPair_count (mode : Frag) (ts : List Tok) (bp : Tok × Tok) (c : Nat)
    (h : Main.selectPair mode ts = some (bp, c)) :
    c = cnt bp (ts.zip ts.tail) ∧ 1 ≤ c ∧
      (mode = ['w'] → Main.pairAllowedW bp = true) := by
  obtain ⟨e, hmem, h1, h2, h3⟩ := selectPair_entry mode ts bp c h
  obtain ⟨hocc, hne⟩ := getPairs_entry ts e hmem
  refine ⟨?_, ?_, h3⟩
  · rw [← h2, hocc, h1, occsFrom_length]
  · rw [← h2]
    exact List.length_pos.mpr hne

theorem step_some (mode : Frag) (ts : List Tok) (bp : Tok × Tok) (ts' : List Tok)
    (h : Main.step mode ts = some (bp, ts')) :
    2 ≤ cnt bp (ts.zip ts.tail) ∧ ts' = Main.mergePair bp ts ∧
      (mode = ['w'] → Main.pairAllowedW bp = true) := by
  cases hs : Main.selectPair mode ts with
  | none => simp [Main.step, hs] at h
  | some pc =>
    obtain ⟨bp', c⟩ := pc
    simp only [Main.step, hs] at h
    by_cases hc : c < 2
    · rw [if_pos hc] at h; simp at h
    · rw [if_neg hc] at h
      simp only [Option.some.injEq, Prod.mk.injEq] at h
      obtain ⟨hbp, hts⟩ := h
      rw [hbp] at hs
      obtain ⟨hcnt, -, hall⟩ := selectPair_count mode ts bp c hs
      refine ⟨by omega, ?_, hall⟩
      rw [← hts, hbp]

theorem fast_selectPair_eq (mode : Frag) (ts : List Tok) :
    Fast.selectPair mode ts = Main.selectPair mode ts := rfl

theorem fast_mergePair_eq (p : Tok × Tok) (l : List Tok) :
    Fast.mergePair p l = Main.mergePair p l := by
  induction l using Fast.mergePair.induct p with
  | case1 t1 t2 rest h ih =>
    simp [Fast.mergePair, Main.mergePair, if_pos h, ih]
  | case2 t1 t2 rest h ih =>
    simp [Fast.mergePair, Main.mergePair, if_neg h, ih]
  | case3 l h =>
    cases l with
    | nil => rfl
    | cons t tail =>
      cases tail with
      | nil => rfl
      | cons t2 r => exact absurd rfl (h t t2 r)

theorem fast_step_eq (mode : Frag) (ts : List Tok) :
    Fast.step mode ts = Main.step mode ts := by
  unfold Fast.step Main.step
  rw [fast_selectPair_eq]
  cases Main.selectPair mode ts with
  | none => rfl
  | some pc =>
    obtain ⟨bp, c⟩ := pc
    by_cases hc : c < 2
    · simp [hc]
    · simp [hc, fast_mergePair_eq]

theorem fast_loop_eq (mode : Frag) :
    ∀ (k : Nat) (ts : List Tok), Fast.loop mode k ts = Main.loop mode k ts := by
  intro k
  induction k with
  | zero => intro ts; rfl
  | succ k ih =>
    intro ts
    rw [Fast.loop, Main.loop, fast_step_eq]
    cases Main.step mode ts with
    | none => rfl
    | some r =>
      obtain ⟨bp, ts'⟩ := r
      simp [ih]

theorem mostCommon1_mem (l : List (Frag × Nat)) (e : Frag × Nat)
    (h : B.mostCommon1 l = some e) : e ∈ l := by
  cases l with
  | nil => simp [B.mostCommon1] at h
  | cons x rest =>
    simp only [B.mostCommon1, Option.some.injEq] at h
    obtain ⟨hmem, -, -⟩ := foldl_best_spec (fun y => y.2) x e rest h
    exact hmem

theorem reduceTokens_true (ts : List (List Frag)) (tok : Frag)
    (ts' : List (List Frag)) (h : B.reduceTokens ts = (true, tok, ts')) :
    2 ≤ cnt tok ((ts.map B.wordPairs).flatten) ∧
      ts' = ts.map (B.mergeWord tok) := by
  cases hm : B.mostCommon1 (B.pairCounts ts) with
  | none => simp [B.reduceTokens, hm] at h
  | some e =>
    obtain ⟨tk, freq⟩ := e
    simp only [B.reduceTokens, hm] at h
    by_cases hf : freq < 2
    · rw [if_pos hf] at h; simp at h
    · rw [if_neg hf] at h
      simp only [Prod.mk.injEq] at h
      obtain ⟨-, htk, hts⟩ := h
      have hmem := mostCommon1_mem _ _ hm
      rw [htk] at hmem
      obtain ⟨hcnt, -⟩ := pairCounts_entry ts (tok, freq) hmem
      simp only at hcnt
      rw [htk] at hts
      exact ⟨by omega, hts.symm⟩

theorem flatten_map_singleton {α : Type} (l : List α) :
    (l.map (fun x => [x])).flatten = l := by
  induction l with
  | nil => simp
  | cons a rest ih => simp [ih]

theorem forall₂_mem_left {α β : Type} {R : α → β → Prop} :
    ∀ {l1 : List α} {l2 : List β}, List.Forall₂ R l1 l2 →
      ∀ a ∈ l1, ∃ b ∈ l2, R a b := by
  intro l1 l2 h
  induction h with
  | nil => intro a ha; simp at ha
  | @cons x y rl1 rl2 hr hrest ih =>
    intro a ha
    rcases List.mem_cons.mp ha with h1 | h1
    · exact ⟨y, by simp, h1 ▸ hr⟩
    · obtain ⟨b, hb, hrb⟩ := ih a h1
      exact ⟨b, by simp [hb], hrb⟩

theorem init_chunked (text : List Char) :
    Chunked (Main.pySplit text) (Main.initW text) := by
  refine ⟨(Main.pySplit text).map (fun w => (blockOf w).map (fun s => ([s] : Tok))),
    ?_, ?_, ?_⟩
  · rw [Main.initW, Main.getWordBoundaryTokens, List.map_flatten, List.map_map]
    rfl
  · rw [List.forall₂_map_left_iff]
    have : ∀ ws : List (List Char),
        List.Forall₂
          (fun w b => (((blockOf w).map (fun s => ([s] : Tok))).flatten = blockOf b))
          ws ws := by
      intro ws
      induction ws with
      | nil => exact List.Forall₂.nil
      | cons w rest ih =>
        exact List.Forall₂.cons (flatten_map_singleton (blockOf w)) ih
    exact this (Main.pySplit text)
  · intro t ht
    rw [Main.initW] at ht
    obtain ⟨s, -, hs⟩ := List.mem_map.mp ht
    rw [← hs]
    simp

theorem step_chunked (ws : List (List Char)) (ts : List Tok) (bp : Tok × Tok)
    (ts' : List Tok) (hc : Chunked ws ts)
    (h : Main.step ['w'] ts = some (bp, ts')) : Chunked ws ts' := by
  obtain ⟨gss, hflat, hf2, hne⟩ := hc
  obtain ⟨-, hts', hall⟩ := step_some _ ts bp ts' h
  have hallow : Main.pairAllowedW bp = true := hall rfl
  have hbp2 : Main.tokStartsMarker bp.2 = false := by
    cases hb : Main.tokStartsMarker bp.2
    · rfl
    · rw [Main.pairAllowedW, hb] at hallow
      simp at hallow
  have hgroups : ∀ g ∈ gss, ∃ t0 g', g = t0 :: g' ∧ t0 ≠ bp.2 := by
    intro g hg
    obtain ⟨b, -, hgb⟩ := forall₂_mem_left hf2 g hg
    cases g with
    | nil => simp [blockOf] at hgb
    | cons t0 g' =>
      refine ⟨t0, g', rfl, ?_⟩
      have ht0ts : t0 ∈ ts := by
        rw [hflat]
        exact List.mem_flatten.mpr ⟨t0 :: g', hg, List.mem_cons_self _ _⟩
      have ht0ne := hne t0 ht0ts
      cases t0 with
      | nil => exact absurd rfl ht0ne
      | cons s0 t0' =>
        have hs0 : s0 = (['▁'] : Frag) := by
          rw [List.flatten_cons] at hgb
          have := congrArg List.head? hgb
          simpa [blockOf] using this
        intro hcontra
        rw [← hcontra, Main.tokStartsMarker, hs0] at hbp2
        simp [Main.startsWithMarker] at hbp2
  refine ⟨gss.map (Main.mergePair bp), ?_, ?_, ?_⟩
  · rw [hts', hflat]
    exact mergePair_flatten_groups bp gss hgroups
  · rw [List.forall₂_map_left_iff]
    refine List.Forall₂.imp ?_ hf2
    intro g b hgb
    rw [mergePair_flatten, hgb]
  · intro t ht
    rw [hts'] at ht
    exact mergePair_ne_nil bp ts hne t ht

theorem loop_chunked (ws : List (List Char)) :
    ∀ (k : Nat) (ts : List Tok), Chunked ws ts →
      Chunked ws (Main.loop (['w'] : Frag) k ts).2 := by
  intro k
  induction k with
  | zero => intro ts h; exact h
  | succ k ih =>
    intro ts h
    cases hs : Main.step ['w'] ts with
    | none => simpa [Main.loop, hs] using h
    | some r =>
      obtain ⟨bp, ts'⟩ := r
      have := ih ts' (step_chunked ws ts bp ts' h hs)
      simpa [Main.loop, hs] using this

theorem splitWords_chars_aux :
    ∀ (s : List Char),
      (∀ cur, (B.splitWordsAux s (some cur)).flatten =
          cur ++ s.filter B.isWordChar) ∧
        (B.splitWordsAux s none).flatten = s.filter B.isWordChar := by
  intro s
  induction s with
  | nil =>
    exact ⟨fun cur => by simp [B.splitWordsAux], by simp [B.splitWordsAux]⟩
  | cons c rest ih =>
    obtain ⟨ihA, ihB⟩ := ih
    constructor
    · intro cur
      by_cases hw : B.isWordChar c = true
      · simp [B.splitWordsAux, hw, ihA, List.filter_cons]
      · simp [B.splitWordsAux, hw, ihB, List.filter_cons]
    · by_cases hw : B.isWordChar c = true
      · simp [B.splitWordsAux, hw, ihA, List.filter_cons]
      · simp [B.splitWordsAux, hw, ihB, List.filter_cons]

theorem splitWords_chars (s : List Char) :
    (B.splitWords s).flatten = s.filter B.isWordChar := by
  have := (splitWords_chars_aux s).1 []
  simpa [B.splitWords] using this

theorem splitChars_flatten (ws : List (List Char)) :
    ((B.splitChars ws).flatten).flatten = ws.flatten := by
  rw [B.splitChars]
  induction ws with
  | nil => simp
  | cons w rest ih =>
    simp only [List.map_cons, List.filter_cons]
    by_cases hw : w = []
    · subst hw
      simpa using ih
    · have hpos : 0 < (w.map (fun c => ([c] : Frag))).length := by
        simpa using List.length_pos.mpr hw
      rw [if_pos (by simpa using hpos), List.flatten_cons, List.flatten_append,
        flatten_map_singleton, ih, List.flatten_cons]

/-
Part 3: the claims.
-/

/-- C1: the merge applier scans left to right from index 0, replaces each
occurrence of the selected pair at (i, i+1) by the concatenation of the two
fragments and advances by 2, otherwise copies the token and advances by 1;
in particular, for the sequence [a, a, a] with selected pair (a, a) the
result is [aa, a] and never [a, aa] (the inequality requiring only that the
fragment is nonempty, as every reachable fragment is).  Stated for the merge
pass of `bpe` in main.py and, on the concrete example, also for the per-word
merge pass of `_reduce_tokens` in bpe.py. -/
theorem c1_merge_applier_greedy :
    (∀ (p : Tok × Tok) (t1 t2 : Tok) (rest : List Tok),
        Main.mergePair p (t1 :: t2 :: rest) =
          if (t1, t2) = p then (t1 ++ t2) :: Main.mergePair p rest
          else t1 :: Main.mergePair p (t2 :: rest)) ∧
    (∀ p : Tok × Tok, Main.mergePair p [] = []) ∧
    (∀ (p : Tok × Tok) (t : Tok), Main.mergePair p [t] = [t]) ∧
    (∀ a : Tok, Main.mergePair (a, a) [a, a, a] = [a ++ a, a]) ∧
    (∀ a : Tok, a ≠ [] → Main.mergePair (a, a) [a, a, a] ≠ [a, a ++ a]) ∧
    (∀ x : Frag, B.mergeWord (x ++ x) [x, x, x] = [x ++ x, x]) ∧
    (∀ x : Frag, x ≠ [] → B.mergeWord (x ++ x) [x, x, x] ≠ [x, x ++ x]) := by
  have hmain : ∀ a : Tok, Main.mergePair (a, a) [a, a, a] = [a ++ a, a] := by
    intro a
    simp [Main.mergePair]
  have hb : ∀ x : Frag, B.mergeWord (x ++ x) [x, x, x] = [x ++ x, x] := by
    intro x
    simp [B.mergeWord]
  refine ⟨?_, ?_, ?_, hmain, ?_, hb, ?_⟩
  · intro p t1 t2 rest
    rw [Main.mergePair]
  · intro p; rfl
  · intro p t; rfl
  · intro a ha hc
    rw [hmain a] at hc
    have h1 : a ++ a = a := (List.cons.inj hc).1
    have h2 := congrArg List.length h1
    simp only [List.length_append] at h2
    exact ha (List.length_eq_zero.mp (by omega))
  · intro x hx hc
    rw [hb x] at hc
    have h1 : x ++ x = x := (List.cons.inj hc).1
    have h2 := congrArg List.length h1
    simp only [List.length_append] at h2
    exact hx (List.length_eq_zero.mp (by omega))

theorem c1_witness :
    Main.mergePair (([['a']] : Tok), ([['a']] : Tok)) [[['a']], [['a']], [['a']]] ≠
      [[['a']], ([['a']] : Tok) ++ [['a']]] ∧
    B.mergeWord ((['a'] : Frag) ++ ['a']) [['a'], ['a'], ['a']] ≠
      [['a'], (['a'] : Frag) ++ ['a']] :=
  ⟨c1_merge_applier_greedy.2.2.2.2.1 [['a']] (by decide),
   c1_merge_applier_greedy.2.2.2.2.2.2 ['a'] (by decide)⟩

/-- C4 counterexample: the claim states that, in word-boundary mode, a
candidate pair whose left element is the BoundaryMarker fragment is
excluded from pair statistics at every index i ≠ 0.  In the pair statistics
actually used by the merge loop of `bpe` (the `filtered_pairs`
comprehension of src/main.py, lines 154-155, identical in `_bpe_fast`), the
filter condition `not (left marker and right marker) and not right marker`
collapses to `not right marker`, so for the sequence [▁, a, ▁, b] the pair
(▁, b) at index i = 2 ≠ 0 is KEPT, with its occurrence set {2}. -/
theorem c4_counterexample :
    alook ((([['▁']] : Tok), ([['b']] : Tok)))
      (Main.filterPairsW (Main.getPairs
        [[['▁']], [['a']], [['▁']], [['b']]])) = some [2] := by decide

/-- C4 as amended: in the word-boundary pair statistics used by the merge
loops of `bpe` and `_bpe_fast`, a candidate pair is excluded iff its right
element starts with the BoundaryMarker; pairs whose left element is the
marker are counted at every position (not only at i = 0).  Every other
adjacent pair is counted: a pair has an entry in the unfiltered index
exactly when it occurs adjacently in the sequence.  (The asymmetric
left-marker/i ≠ 0 exclusion described by the claim occurs only in the
unused helper `_find_pair_word`.) -/
theorem c4_boundary_filter_amended :
    ∀ (ts : List Tok) (p : Tok × Tok),
      alook p (Main.filterPairsW (Main.getPairs ts)) =
        (if Main.tokStartsMarker p.2 then none
         else alook p (Main.getPairs ts)) ∧
      (alook p (Main.getPairs ts) = none ↔ cnt p (ts.zip ts.tail) = 0) := by
  intro ts p
  constructor
  · rw [Main.filterPairsW, alook_filter]
    cases hb : Main.tokStartsMarker p.2 <;>
      simp [Main.pairAllowedW, hb]
  · rw [getPairs_alook]
    by_cases hc : cnt p (ts.zip ts.tail) = 0
    · simp [extOpt, (occsFrom_eq_nil_iff p _ 0).mpr hc, hc]
    · have hocc : occsFrom p (ts.zip ts.tail) 0 ≠ [] := fun hnil =>
        hc ((occsFrom_eq_nil_iff p _ 0).mp hnil)
      simp [extOpt, hocc, hc]

/-- C7: every successful (non-halting) merge step strictly decreases the
length of the token sequence, in both implementations: a successful `step`
of the merge loop in main.py's `bpe` (any mode) shortens the token-tuple
list, and a successful `_reduce_tokens` in bpe.py strictly decreases the
total number of tokens across words.  A halting step leaves the sequence
unchanged, so the length never increases on any step. -/
theorem c7_length_decrease :
    (∀ (mode : Frag) (ts : List Tok) (bp : Tok × Tok) (ts' : List Tok),
        Main.step mode ts = some (bp, ts') → ts'.length < ts.length) ∧
    (∀ (ts ts' : List (List Frag)) (tok : Frag),
        B.reduceTokens ts = (true, tok, ts') →
          B.totalLen ts' < B.totalLen ts) := by
  constructor
  · intro mode ts bp ts' h
    obtain ⟨hcnt, hts', -⟩ := step_some mode ts bp ts' h
    have hmem : bp ∈ ts.zip ts.tail := (cnt_pos_iff_mem bp _).mp (by omega)
    rw [hts']
    exact mergePair_length_lt bp ts hmem
  · intro ts ts' tok h
    obtain ⟨hcnt, hts'⟩ := reduceTokens_true ts tok ts' h
    have hmem : tok ∈ (ts.map B.wordPairs).flatten :=
      (cnt_pos_iff_mem tok _).mp (by omega)
    obtain ⟨wp, hwp, htokwp⟩ := List.mem_flatten.mp hmem
    obtain ⟨w, hw, hfw⟩ := List.mem_map.mp hwp
    rw [hts']
    refine totalLen_lt tok ts ⟨w, hw, ?_⟩
    rw [hfw]
    exact htokwp

theorem c7_witness :
    ([[['a'], ['b']], [['a'], ['b']]] : List Tok).length <
      ([[['a']], [['b']], [['a']], [['b']]] : List Tok).length ∧
    B.totalLen [[['a','b'], ['a','b']]] <
      B.totalLen [[['a'], ['b'], ['a'], ['b']]] :=
  ⟨c7_length_decrease.1 ['c'] [[['a']], [['b']], [['a']], [['b']]]
      (([['a']] : Tok), ([['b']] : Tok)) [[['a'], ['b']], [['a'], ['b']]]
      (by decide),
   c7_length_decrease.2 [[['a'], ['b'], ['a'], ['b']]] [[['a','b'], ['a','b']]]
      ['a','b'] (by decide)⟩

/-- C8 counterexample: the claim states that in character mode the
segmenter's output is exactly the text's characters with no whitespace
handling; but the segmenter of bpe.py (`_split_words` + `_split_chars`,
cited by the claim) splits on runs of non-word characters and discards
them, so on the text "a b" the flattened segmented output is ['a','b'],
missing the space. -/
theorem c8_counterexample :
    ((B.splitChars (B.splitWords ['a', ' ', 'b'])).flatten).flatten ≠
      ['a', ' ', 'b'] := by decide

/-- C8 as amended: in main.py's character mode, `_get_chars` yields exactly
the text's characters, in order, each as a one-character fragment (its
flattening is the text and every fragment has length 1), with no whitespace
handling; the segmenter of bpe.py instead splits the text on runs of
non-word characters (not only whitespace) and yields each word's
characters, discarding the separators: its flattened output is the text
restricted to word characters. -/
theorem c8_segmenter_amended :
    (∀ text : List Char,
        (Main.getChars text).flatten = text ∧
          (Main.getChars text).map List.length = text.map (fun _ => 1)) ∧
    (∀ text : List Char,
        ((B.splitChars (B.splitWords text)).flatten).flatten =
          text.filter B.isWordChar) := by
  constructor
  · intro text
    constructor
    · exact flatten_map_singleton text
    · rw [Main.getChars, List.map_map]
      rfl
  · intro text
    rw [splitChars_flatten, splitWords_chars]

/-- C10: `_bpe_fast` returns exactly the token list produced by the merge
loop inside `bpe` (main.py) on the same initial tokens, for every initial
token list, step budget and mode: `_bpe_fast` equals wrapping the tokens
into one-element tuples, running `bpe`'s merge loop, and flattening the
final tuples back to strings. -/
theorem c10_fast_equiv_bpe (tokens : List Frag) (k : Nat) (mode : Frag) :
    Fast.bpeFast tokens k mode =
      ((Main.loop mode k (tokens.map (fun t => ([t] : Tok)))).2).map
        (fun t => t.flatten) := by
  rw [Fast.bpeFast, fast_loop_eq]

/-- C6: in bpe.py's training loop (the spec's character mode), if the newly
merged fragment already belongs to the vocabulary the run aborts
immediately with an error identifying exactly the offending fragment (the
`assert new_token not in vocab` of src/bpe.py, lines 168-170, modelled as
`Except.error`); otherwise each successful step adds exactly that one new
fragment, so a successful run's final vocabulary contains the initial one
and has grown by exactly the number of completed steps, and whenever the
run aborts the offending fragment was already in the (only-grown)
vocabulary at that point. -/
theorem c6_vocabulary_collision :
    (∀ (k : Nat) (v : Finset Frag) (ts : List (List Frag)) (tok : Frag)
        (ts' : List (List Frag)),
        B.reduceTokens ts = (true, tok, ts') → tok ∈ v →
        B.loopB (k + 1) v ts = .error tok) ∧
    (∀ (k : Nat) (v : Finset Frag) (ts : List (List Frag))
        (r : Finset Frag × List (List Frag) × Nat),
        B.loopB k v ts = .ok r → v ⊆ r.1 ∧ r.1.card = v.card + r.2.2) ∧
    (∀ (k : Nat) (v : Finset Frag) (ts : List (List Frag)) (f : Frag),
        B.loopB k v ts = .error f → ∃ v1 : Finset Frag, v ⊆ v1 ∧ f ∈ v1) := by
  refine ⟨?_, ?_, ?_⟩
  · intro k v ts tok ts' hred hmem
    simp [B.loopB, hred, hmem]
  · intro k
    induction k with
    | zero =>
      intro v ts r h
      simp only [B.loopB] at h
      obtain rfl := Except.ok.inj h
      exact ⟨Finset.Subset.refl v, by simp⟩
    | succ k ih =>
      intro v ts r h
      rcases hred : B.reduceTokens ts with ⟨okb, tok, ts'⟩
      cases okb with
      | false =>
        simp only [B.loopB, hred] at h
        obtain rfl := Except.ok.inj h
        exact ⟨Finset.Subset.refl v, by simp⟩
      | true =>
        simp only [B.loopB, hred] at h
        by_cases hv : tok ∈ v
        · rw [if_pos hv] at h
          exact absurd h (by simp)
        · rw [if_neg hv] at h
          rcases hrec : B.loopB k (insert tok v) ts' with f | r'
          · rw [hrec] at h
            exact absurd h (by simp)
          · rw [hrec] at h
            obtain ⟨v', fin, s⟩ := r'
            obtain rfl := Except.ok.inj h
            obtain ⟨hsub, hcard⟩ := ih (insert tok v) ts' (v', fin, s) hrec
            refine ⟨?_, ?_⟩
            · exact Finset.Subset.trans (Finset.subset_insert tok v) hsub
            · simp only at hcard ⊢
              rw [hcard, Finset.card_insert_of_not_mem hv]
              omega
  · intro k
    induction k with
    | zero =>
      intro v ts f h
      simp only [B.loopB] at h
      exact absurd h (by simp)
    | succ k ih =>
      intro v ts f h
      rcases hred : B.reduceTokens ts with ⟨okb, tok, ts'⟩
      cases okb with
      | false =>
        simp only [B.loopB, hred] at h
        exact absurd h (by simp)
      | true =>
        simp only [B.loopB, hred] at h
        by_cases hv : tok ∈ v
        · rw [if_pos hv] at h
          obtain rfl := Except.error.inj h
          exact ⟨v, Finset.Subset.refl v, hv⟩
        · rw [if_neg hv] at h
          rcases hrec : B.loopB k (insert tok v) ts' with f' | r'
          · rw [hrec] at h
            have hff := Except.error.inj h
            obtain ⟨v1, hsub, hmem⟩ := ih (insert tok v) ts' f' hrec
            exact ⟨v1, Finset.Subset.trans (Finset.subset_insert tok v) hsub,
              hff ▸ hmem⟩
          · rw [hrec] at h
            obtain ⟨v', fin, s⟩ := r'
            exact absurd h (by simp)

theorem c6_witness :
    B.loopB 1 ({['a','b']} : Finset Frag) [[['a'], ['b'], ['a'], ['b']]] =
      .error ['a','b'] :=
  c6_vocabulary_collision.1 0 {['a','b']} [[['a'], ['b'], ['a'], ['b']]]
    ['a','b'] [[['a','b'], ['a','b']]] (by decide) (by decide)

/-- C3: neither training loop ever applies a merge whose selected pair
occurs fewer than 2 times.  In main.py's `bpe`: a successful `step` implies
the selected pair occurs at least twice in the current sequence, the loop
completes at most k steps, and if it completed fewer than k steps then the
final state admits no eligible merge (empty or all-filtered index, or best
count below 2 — the `step ... = none` cases).  In bpe.py: a successful
`_reduce_tokens` implies the selected token's pair count is at least 2, and
a run of the loop (always returning successfully, `Except.ok`) completes at
most k steps, reporting the number actually completed, and stops short of k
only when `_reduce_tokens` reports no eligible merge on the final state. -/
theorem c3_min_support_halting :
    (∀ (mode : Frag) (ts : List Tok) (bp : Tok × Tok) (ts' : List Tok),
        Main.step mode ts = some (bp, ts') → 2 ≤ cnt bp (ts.zip ts.tail)) ∧
    (∀ (mode : Frag) (k : Nat) (ts : List Tok),
        (Main.loop mode k ts).1 ≤ k ∧
          ((Main.loop mode k ts).1 < k →
            Main.step mode (Main.loop mode k ts).2 = none)) ∧
    (∀ (ts ts' : List (List Frag)) (tok : Frag),
        B.reduceTokens ts = (true, tok, ts') →
          2 ≤ cnt tok ((ts.map B.wordPairs).flatten)) ∧
    (∀ (k : Nat) (v : Finset Frag) (ts : List (List Frag))
        (r : Finset Frag × List (List Frag) × Nat),
        B.loopB k v ts = .ok r →
          r.2.2 ≤ k ∧ (r.2.2 < k → (B.reduceTokens r.2.1).1 = false)) := by
  refine ⟨?_, ?_, ?_, ?_⟩
  · intro mode ts bp ts' h
    exact (step_some mode ts bp ts' h).1
  · intro mode k
    induction k with
    | zero => intro ts; exact ⟨le_rfl, fun h => absurd h (by omega)⟩
    | succ k ih =>
      intro ts
      cases hs : Main.step mode ts with
      | none =>
        constructor
        · simp [Main.loop, hs]
        · intro _
          simpa [Main.loop, hs] using hs
      | some r =>
        obtain ⟨bp, ts'⟩ := r
        obtain ⟨ih1, ih2⟩ := ih ts'
        constructor
        · simp only [Main.loop, hs]
          omega
        · intro hlt
          simp only [Main.loop, hs] at hlt ⊢
          exact ih2 (by omega)
  · intro ts ts' tok h
    exact (reduceTokens_true ts tok ts' h).1
  · intro k
    induction k with
    | zero =>
      intro v ts r h
      simp only [B.loopB] at h
      obtain rfl := Except.ok.inj h
      exact ⟨le_rfl, fun hlt => absurd hlt (by omega)⟩
    | succ k ih =>
      intro v ts r h
      rcases hred : B.reduceTokens ts with ⟨okb, tok, ts'⟩
      cases okb with
      | false =>
        simp only [B.loopB, hred] at h
        obtain rfl := Except.ok.inj h
        refine ⟨by simp, fun _ => ?_⟩
        simp only
        rw [hred]
      | true =>
        simp only [B.loopB, hred] at h
        by_cases hv : tok ∈ v
        · rw [if_pos hv] at h
          exact absurd h (by simp)
        · rw [if_neg hv] at h
          rcases hrec : B.loopB k (insert tok v) ts' with f | r'
          · rw [hrec] at h
            exact absurd h (by simp)
          · rw [hrec] at h
            obtain ⟨v', fin, s⟩ := r'
            obtain rfl := Except.ok.inj h
            obtain ⟨ih1, ih2⟩ := ih (insert tok v) ts' (v', fin, s) hrec
            simp only at ih1 ih2 ⊢
            exact ⟨by omega, fun hlt => ih2 (by omega)⟩

theorem c3_witness :
    2 ≤ cnt (([['a']] : Tok), ([['b']] : Tok))
        (([[['a']], [['b']], [['a']], [['b']]] : List Tok).zip
          ([[['a']], [['b']], [['a']], [['b']]] : List Tok).tail) ∧
    (Main.loop ['c'] 5 [[['a']], [['b']], [['a']], [['b']]]).1 ≤ 5 ∧
    Main.step ['c'] (Main.loop ['c'] 5 [[['a']], [['b']], [['a']], [['b']]]).2 =
      none ∧
    2 ≤ cnt (['a','b'] : Frag)
        (([[['a'], ['b'], ['a'], ['b']]].map B.wordPairs).flatten) ∧
    (({['a','b']} : Finset Frag), ([[['a','b'], ['a','b']]] : List (List Frag)),
        (1 : Nat)).2.2 ≤ 5 ∧
    (B.reduceTokens (({['a','b']} : Finset Frag),
        ([[['a','b'], ['a','b']]] : List (List Frag)), (1 : Nat)).2.1).1 =
      false :=
  ⟨c3_min_support_halting.1 ['c'] [[['a']], [['b']], [['a']], [['b']]]
      (([['a']] : Tok), ([['b']] : Tok)) [[['a'], ['b']], [['a'], ['b']]]
      (by decide),
   (c3_min_support_halting.2.1 ['c'] 5 [[['a']], [['b']], [['a']], [['b']]]).1,
   (c3_min_support_halting.2.1 ['c'] 5 [[['a']], [['b']], [['a']], [['b']]]).2
      (by decide),
   c3_min_support_halting.2.2.1 [[['a'], ['b'], ['a'], ['b']]]
      [[['a','b'], ['a','b']]] ['a','b'] (by decide),
   (c3_min_support_halting.2.2.2 5 ∅ [[['a'], ['b'], ['a'], ['b']]]
      ({['a','b']}, [[['a','b'], ['a','b']]], 1) (by decide)).1,
   (c3_min_support_halting.2.2.2 5 ∅ [[['a'], ['b'], ['a'], ['b']]]
      ({['a','b']}, [[['a','b'], ['a','b']]], 1) (by decide)).2 (by decide)⟩

/-- C9 counterexample: the claim states that with relative frequencies
every entry of the frequency table lies in (0,1].  Running bpe.py's `bpe`
on "aaaa" with one step and relative frequencies succeeds with the
non-empty final sequence [[aa, aa]], the seed fragment 'a' still in the
vocabulary (first conjunct), yet the frequency-table entry of 'a' is 0,
outside (0,1] (second conjunct). -/
theorem c9_counterexample :
    (B.bpeB ['a','a','a','a'] 1 true).map
        (fun r => (decide ((['a'] : Frag) ∈ r.1), r.2.1)) =
      Except.ok (true, [[['a','a'], ['a','a']]]) ∧
    (B.bpeB ['a','a','a','a'] 1 true).map (fun r => r.2.2 ['a']) =
      Except.ok (0 : ℚ) := by
  constructor
  · decide
  · have h : B.bpeB ['a','a','a','a'] 1 true =
        Except.ok (insert (['a','a'] : Frag) {(['a'] : Frag)},
          [[['a','a'],['a','a']]],
          B.frequencyTable (insert (['a','a'] : Frag) {(['a'] : Frag)})
            [[['a','a'],['a','a']]] true) := by rfl
    rw [h]
    have hlen : ([[['a','a'],['a','a']]] : List (List Frag)).flatten.length = 2 := by
      decide
    simp [Except.map, B.frequencyTable, hlen]
    decide

/-- C9 as amended: with relative frequencies requested and a non-empty
final sequence, every frequency-table entry equals that fragment's count in
the final flattened sequence divided by the total number of tokens (the
division taken exactly), and lies in [0,1]; it is positive exactly for
fragments that still occur, and is 0 — outside the claimed interval
(0,1] — for vocabulary fragments with no remaining occurrence. -/
theorem c9_relative_freq_amended (v : Finset Frag) (ts : List (List Frag))
    (tok : Frag) (h : 0 < ts.flatten.length) :
    B.frequencyTable v ts true tok =
        (cnt tok ts.flatten : ℚ) / (ts.flatten.length : ℚ) ∧
      0 ≤ B.frequencyTable v ts true tok ∧
      B.frequencyTable v ts true tok ≤ 1 ∧
      (0 < cnt tok ts.flatten → 0 < B.frequencyTable v ts true tok) ∧
      (cnt tok ts.flatten = 0 → B.frequencyTable v ts true tok = 0) := by
  have heq : B.frequencyTable v ts true tok =
      (cnt tok ts.flatten : ℚ) / (ts.flatten.length : ℚ) := by
    simp [B.frequencyTable]
  have hlen : (0 : ℚ) < (ts.flatten.length : ℚ) := by exact_mod_cast h
  refine ⟨heq, ?_, ?_, ?_, ?_⟩
  · rw [heq]
    exact div_nonneg (Nat.cast_nonneg _) (le_of_lt hlen)
  · rw [heq, div_le_one hlen]
    exact_mod_cast cnt_le_length tok ts.flatten
  · intro hpos
    rw [heq]
    exact div_pos (by exact_mod_cast hpos) hlen
  · intro hzero
    rw [heq, hzero]
    simp

theorem c9_witness :
    B.frequencyTable ∅ [[['a']]] true ['a'] =
        (cnt (['a'] : Frag) ([[['a']]] : List (List Frag)).flatten : ℚ) /
          ((([[['a']]] : List (List Frag)).flatten.length : Nat) : ℚ) ∧
      0 ≤ B.frequencyTable ∅ [[['a']]] true ['a'] ∧
      B.frequencyTable ∅ [[['a']]] true ['a'] ≤ 1 ∧
      (0 < cnt (['a'] : Frag) ([[['a']]] : List (List Frag)).flatten →
        0 < B.frequencyTable ∅ [[['a']]] true ['a']) ∧
      (cnt (['a'] : Frag) ([[['a']]] : List (List Frag)).flatten = 0 →
        B.frequencyTable ∅ [[['a']]] true ['a'] = 0) :=
  c9_relative_freq_amended ∅ [[['a']]] ['a'] (by decide)

theorem indexPairs_entry {α : Type} [DecidableEq α] (l : List α)
    (e : α × List Nat) (h : e ∈ indexPairs l 0 []) :
    e.2 = occsFrom e.1 l 0 ∧ e.2 ≠ [] := by
  have hl : alook e.1 (indexPairs l 0 []) = some e.2 :=
    alook_of_mem _ e.1 e.2 (nodup_map_fst_indexPairs l 0 [] (by simp)) h
  rw [indexPairs_alook] at hl
  simp only [alook] at hl
  by_cases hocc : occsFrom e.1 l 0 = []
  · simp [extOpt, hocc] at hl
  · simp [extOpt, hocc] at hl
    exact ⟨hl.symm, hl ▸ hocc⟩

theorem indexPairs_keys_pairwise {α : Type} [DecidableEq α] (l : List α) :
    (indexPairs l 0 []).Pairwise
      (fun e1 e2 => firstIdx e1.1 l < firstIdx e2.1 l) := by
  have hpw := (indexPairs_inv l 0 [] (by simp) (by simp) (by simp)).2
  refine hpw.imp_of_mem ?_
  intro e1 e2 h1 h2 hlt
  obtain ⟨hocc1, hne1⟩ := indexPairs_entry l e1 h1
  obtain ⟨hocc2, hne2⟩ := indexPairs_entry l e2 h2
  have hm1 : e1.1 ∈ l := by
    rw [← cnt_pos_iff_mem]
    have := (occsFrom_eq_nil_iff e1.1 l 0).not.mp (hocc1 ▸ hne1)
    omega
  have hm2 : e2.1 ∈ l := by
    rw [← cnt_pos_iff_mem]
    have := (occsFrom_eq_nil_iff e2.1 l 0).not.mp (hocc2 ▸ hne2)
    omega
  rw [hocc1, hocc2, occsFrom_headI e1.1 l 0 hm1, occsFrom_headI e2.1 l 0 hm2]
    at hlt
  omega

theorem foldl_bump_keys_eq_indexPairs {α : Type} [DecidableEq α] :
    ∀ (l : List α) (i : Nat) (acc : List (α × Nat))
      (acc' : List (α × List Nat)),
      acc.map Prod.fst = acc'.map Prod.fst →
      (l.foldl bump acc).map Prod.fst =
        (indexPairs l i acc').map Prod.fst := by
  intro l
  induction l with
  | nil => intro i acc acc' h; simpa [indexPairs] using h
  | cons a rest ih =>
    intro i acc acc' h
    rw [List.foldl_cons, indexPairs]
    apply ih
    rw [map_fst_bump, map_fst_addOcc, h]

theorem pairCounts_eq_foldl (ts : List (List Frag)) :
    B.pairCounts ts = ((ts.map B.wordPairs).flatten).foldl bump [] := by
  rw [B.pairCounts]
  have hgen : ∀ (ws : List (List Frag)) (acc : List (Frag × Nat)),
      ws.foldl (fun acc' w => (B.wordPairs w).foldl bump acc') acc =
        ((ws.map B.wordPairs).flatten).foldl bump acc := by
    intro ws
    induction ws with
    | nil => intro acc; simp
    | cons w rest ih =>
      intro acc
      rw [List.foldl_cons, ih, List.map_cons, List.flatten_cons,
        List.foldl_append]
  exact hgen ts []

theorem pairCounts_keys_pairwise (ts : List (List Frag)) :
    (B.pairCounts ts).Pairwise
      (fun e1 e2 => firstIdx e1.1 ((ts.map B.wordPairs).flatten) <
        firstIdx e2.1 ((ts.map B.wordPairs).flatten)) := by
  have hkeys : (B.pairCounts ts).map Prod.fst =
      (indexPairs ((ts.map B.wordPairs).flatten) 0 []).map Prod.fst := by
    rw [pairCounts_eq_foldl]
    exact foldl_bump_keys_eq_indexPairs _ 0 [] [] rfl
  have h1 : (((indexPairs ((ts.map B.wordPairs).flatten) 0 []).map
        Prod.fst).Pairwise
      (fun a b => firstIdx a ((ts.map B.wordPairs).flatten) <
        firstIdx b ((ts.map B.wordPairs).flatten))) :=
    (List.pairwise_map).mpr
      (indexPairs_keys_pairwise ((ts.map B.wordPairs).flatten))
  rw [← hkeys] at h1
  exact (@List.pairwise_map (Frag × Nat) Frag Prod.fst
    (fun a b => firstIdx a ((ts.map B.wordPairs).flatten) <
      firstIdx b ((ts.map B.wordPairs).flatten))
    (B.pairCounts ts)).mp h1

theorem filtered_select_spec (ts : List Tok) (f : (Tok × Tok) → Bool)
    (e : (Tok × Tok) × List Nat) (rest : List ((Tok × Tok) × List Nat))
    (hf : (Main.getPairs ts).filter (fun x => f x.1) = e :: rest) :
    f (Main.bestOf e rest).1 = true ∧
    (Main.bestOf e rest).2.length =
      cnt (Main.bestOf e rest).1 (ts.zip ts.tail) ∧
    (∀ q : Tok × Tok, f q = true →
      cnt q (ts.zip ts.tail) ≤ (Main.bestOf e rest).2.length) ∧
    (∀ q : Tok × Tok, f q = true → q ≠ (Main.bestOf e rest).1 →
      cnt q (ts.zip ts.tail) = (Main.bestOf e rest).2.length →
      firstIdx (Main.bestOf e rest).1 (ts.zip ts.tail) <
        firstIdx q (ts.zip ts.tail)) := by
  obtain ⟨hmem, hmax, l1, l2, hsplit, hpre⟩ :=
    foldl_best_spec (fun x : (Tok × Tok) × List Nat => x.2.length) e
      (Main.bestOf e rest) rest rfl
  have hmemF : Main.bestOf e rest ∈
      (Main.getPairs ts).filter (fun x => f x.1) := by
    rw [hf]; exact hmem
  have hmemP := (List.mem_filter.mp hmemF).1
  have hfb : f (Main.bestOf e rest).1 = true := by
    simpa using (List.mem_filter.mp hmemF).2
  obtain ⟨hocc, hne⟩ := getPairs_entry ts _ hmemP
  have hcnt : (Main.bestOf e rest).2.length =
      cnt (Main.bestOf e rest).1 (ts.zip ts.tail) := by
    rw [hocc, occsFrom_length]
  have hcpos : 1 ≤ (Main.bestOf e rest).2.length := by
    exact List.length_pos.mpr hne
  refine ⟨hfb, hcnt, ?_, ?_⟩
  · intro q hq
    by_cases hqz : cnt q (ts.zip ts.tail) = 0
    · omega
    · have hoccq : occsFrom q (ts.zip ts.tail) 0 ≠ [] := fun hnil =>
        hqz ((occsFrom_eq_nil_iff q _ 0).mp hnil)
      have halq : alook q (Main.getPairs ts) =
          some (occsFrom q (ts.zip ts.tail) 0) := by
        rw [getPairs_alook]
        simp [extOpt, hoccq]
      have hqmem := mem_of_alook _ q _ halq
      have hqmemF : (q, occsFrom q (ts.zip ts.tail) 0) ∈
          (Main.getPairs ts).filter (fun x => f x.1) := by
        rw [List.mem_filter]
        exact ⟨hqmem, by simpa using hq⟩
      rw [hf] at hqmemF
      have hle := hmax _ hqmemF
      simp only at hle
      rw [occsFrom_length] at hle
      exact hle
  · intro q hq hqne hqc
    have hoccq : occsFrom q (ts.zip ts.tail) 0 ≠ [] := fun hnil => by
      have := (occsFrom_eq_nil_iff q _ 0).mp hnil
      omega
    have halq : alook q (Main.getPairs ts) =
        some (occsFrom q (ts.zip ts.tail) 0) := by
      rw [getPairs_alook]
      simp [extOpt, hoccq]
    have hqmem := mem_of_alook _ q _ halq
    have hqmemF : (q, occsFrom q (ts.zip ts.tail) 0) ∈
        (Main.getPairs ts).filter (fun x => f x.1) := by
      rw [List.mem_filter]
      exact ⟨hqmem, by simpa using hq⟩
    rw [hf] at hqmemF
    have hqnotbest : (q, occsFrom q (ts.zip ts.tail) 0) ≠
        Main.bestOf e rest := by
      intro hcontra
      apply hqne
      rw [← hcontra]
    have hql2 : (q, occsFrom q (ts.zip ts.tail) 0) ∈ l2 := by
      rw [hsplit] at hqmemF
      rcases List.mem_append.mp hqmemF with hin | hin
      · exfalso
        have hlt := hpre _ hin
        simp only at hlt
        rw [occsFrom_length] at hlt
        omega
      · rcases List.mem_cons.mp hin with hbest | hin2
        · exact absurd hbest hqnotbest
        · exact hin2
    have hsub : (e :: rest).Sublist (Main.getPairs ts) := by
      rw [← hf]
      exact List.filter_sublist (Main.getPairs ts)
    have hpw := List.Pairwise.sublist hsub (getPairs_pairwise ts)
    rw [hsplit] at hpw
    have hpw2 := (List.pairwise_append.mp hpw).2.1
    rw [List.pairwise_cons] at hpw2
    have hlt := hpw2.1 _ hql2
    simp only at hlt
    have hbpmem : (Main.bestOf e rest).1 ∈ ts.zip ts.tail := by
      rw [← cnt_pos_iff_mem]
      omega
    have hqmem2 : q ∈ ts.zip ts.tail := by
      rw [← cnt_pos_iff_mem]
      omega
    rw [hocc, occsFrom_headI _ _ 0 hbpmem, occsFrom_headI q _ 0 hqmem2] at hlt
    omega

/-- C2: at every step, each merge selector picks the pair with the largest
occurrence count among the candidates in its index, breaking ties by
earliest insertion into the index, which is first appearance scanning the
current sequence left to right.  Covered selectors: main.py's `bpe` in the
non-word branch (the full index), main.py's `bpe` in the word branch (the
filtered index: among pairs surviving the boundary filter), and bpe.py's
`_reduce_tokens` (`most_common(1)` over the Counter).  In bpe.py a
candidate pair IS its concatenated string (the source's `pair = word[i] +
word[i + 1]`), so distinct token splittings with the same concatenation are
one pair key whose occurrence count pools their adjacency positions; the
theorem states count, maximality and tie-break over exactly these keys, in
the scan order of the counting loops (words in order, positions left to
right). -/
theorem c2_selector_max_leftmost :
    (∀ (mode : Frag) (ts : List Tok) (bp : Tok × Tok) (c : Nat),
        mode ≠ ['w'] → Main.selectPair mode ts = some (bp, c) →
        c = cnt bp (ts.zip ts.tail) ∧
          (∀ q : Tok × Tok, cnt q (ts.zip ts.tail) ≤ c) ∧
          (∀ q : Tok × Tok, q ≠ bp → cnt q (ts.zip ts.tail) = c →
            firstIdx bp (ts.zip ts.tail) < firstIdx q (ts.zip ts.tail))) ∧
    (∀ (ts : List Tok) (bp : Tok × Tok) (c : Nat),
        Main.selectPair ['w'] ts = some (bp, c) →
        Main.pairAllowedW bp = true ∧
          c = cnt bp (ts.zip ts.tail) ∧
          (∀ q : Tok × Tok, Main.pairAllowedW q = true →
            cnt q (ts.zip ts.tail) ≤ c) ∧
          (∀ q : Tok × Tok, Main.pairAllowedW q = true → q ≠ bp →
            cnt q (ts.zip ts.tail) = c →
            firstIdx bp (ts.zip ts.tail) < firstIdx q (ts.zip ts.tail))) ∧
    (∀ (ts : List (List Frag)) (tok : Frag) (freq : Nat),
        B.mostCommon1 (B.pairCounts ts) = some (tok, freq) →
        freq = cnt tok ((ts.map B.wordPairs).flatten) ∧
          (∀ s : Frag, cnt s ((ts.map B.wordPairs).flatten) ≤ freq) ∧
          (∀ s : Frag, s ≠ tok →
            cnt s ((ts.map B.wordPairs).flatten) = freq →
            firstIdx tok ((ts.map B.wordPairs).flatten) <
              firstIdx s ((ts.map B.wordPairs).flatten))) := by
  refine ⟨?_, ?_, ?_⟩
  · intro mode ts bp c hmode h
    cases hg : Main.getPairs ts with
    | nil => simp [Main.selectPair, hg] at h
    | cons e rest =>
      simp only [Main.selectPair, hg] at h
      rw [if_neg hmode] at h
      simp only [Option.some.injEq, Prod.mk.injEq] at h
      obtain ⟨h1, h2⟩ := h
      have hft : (Main.getPairs ts).filter
          (fun x => (fun _ : Tok × Tok => true) x.1) = e :: rest := by
        simp only [List.filter_true]
        exact hg
      obtain ⟨-, hlen, hmax, htie⟩ :=
        filtered_select_spec ts (fun _ => true) e rest hft
      refine ⟨?_, ?_, ?_⟩
      · rw [← h2, ← h1]
        exact hlen
      · intro q
        rw [← h2]
        exact hmax q rfl
      · intro q hqne hqc
        rw [← h1]
        refine htie q rfl ?_ ?_
        · rw [h1]; exact hqne
        · rw [h2]; exact hqc
  · intro ts bp c h
    cases hg : Main.getPairs ts with
    | nil => simp [Main.selectPair, hg] at h
    | cons e rest =>
      simp only [Main.selectPair, hg] at h
      rw [if_true] at h
      cases hfw : Main.filterPairsW (e :: rest) with
      | nil => rw [hfw] at h; simp at h
      | cons f0 frest =>
        rw [hfw] at h
        simp only [Option.some.injEq, Prod.mk.injEq] at h
        obtain ⟨h1, h2⟩ := h
        have hft : (Main.getPairs ts).filter
            (fun x => Main.pairAllowedW x.1) = f0 :: frest := by
          rw [Main.filterPairsW] at hfw
          rw [hg]
          exact hfw
        obtain ⟨hpab, hlen, hmax, htie⟩ :=
          filtered_select_spec ts Main.pairAllowedW f0 frest hft
        refine ⟨h1 ▸ hpab, ?_, ?_, ?_⟩
        · rw [← h2, ← h1]
          exact hlen
        · intro q hq
          rw [← h2]
          exact hmax q hq
        · intro q hq hqne hqc
          rw [← h1]
          refine htie q hq ?_ ?_
          · rw [h1]; exact hqne
          · rw [h2]; exact hqc
  · intro ts tok freq h
    cases hpc : B.pairCounts ts with
    | nil => simp [B.mostCommon1, hpc] at h
    | cons e rest =>
      simp only [B.mostCommon1, hpc, Option.some.injEq] at h
      obtain ⟨hmem, hmax, l1, l2, hsplit, hpre⟩ :=
        foldl_best_spec (fun x : Frag × Nat => x.2) e (tok, freq) rest h
      have hmemPC : (tok, freq) ∈ B.pairCounts ts := by
        rw [hpc]; exact hmem
      obtain ⟨hcnt, hfpos⟩ := pairCounts_entry ts (tok, freq) hmemPC
      simp only at hcnt hfpos
      refine ⟨hcnt, ?_, ?_⟩
      · intro s
        by_cases hs : cnt s ((ts.map B.wordPairs).flatten) = 0
        · omega
        · have hal : alook s (B.pairCounts ts) =
              some (cnt s ((ts.map B.wordPairs).flatten)) := by
            rw [pairCounts_alook]
            simp [extCnt, hs]
          have hsm := mem_of_alook _ s _ hal
          rw [hpc] at hsm
          have hle := hmax _ hsm
          simp only at hle
          exact hle
      · intro s hsne hsc
        have hs : cnt s ((ts.map B.wordPairs).flatten) ≠ 0 := by omega
        have hal : alook s (B.pairCounts ts) =
            some (cnt s ((ts.map B.wordPairs).flatten)) := by
          rw [pairCounts_alook]
          simp [extCnt, hs]
        have hsm := mem_of_alook _ s _ hal
        rw [hpc] at hsm
        have hsnotbest : (s, cnt s ((ts.map B.wordPairs).flatten)) ≠
            (tok, freq) := by
          intro hcontra
          exact hsne (congrArg Prod.fst hcontra)
        have hsl2 : (s, cnt s ((ts.map B.wordPairs).flatten)) ∈ l2 := by
          rw [hsplit] at hsm
          rcases List.mem_append.mp hsm with hin | hin
          · exfalso
            have hlt := hpre _ hin
            simp only at hlt
            omega
          · rcases List.mem_cons.mp hin with hbest | hin2
            · exact absurd hbest hsnotbest
            · exact hin2
        have hpw := pairCounts_keys_pairwise ts
        rw [hpc, hsplit] at hpw
        have hpw2 := (List.pairwise_append.mp hpw).2.1
        rw [List.pairwise_cons] at hpw2
        have hlt := hpw2.1 _ hsl2
        simpa using hlt

theorem c2_witness :
    cnt (([['b']] : Tok), ([['c']] : Tok))
        (([[['a']], [['b']], [['c']], [['a']], [['b']], [['c']]] :
            List Tok).zip
          ([[['a']], [['b']], [['c']], [['a']], [['b']], [['c']]] :
            List Tok).tail) ≤ 2 ∧
    firstIdx (([['a']] : Tok), ([['b']] : Tok))
        (([[['a']], [['b']], [['c']], [['a']], [['b']], [['c']]] :
            List Tok).zip
          ([[['a']], [['b']], [['c']], [['a']], [['b']], [['c']]] :
            List Tok).tail) <
      firstIdx (([['b']] : Tok), ([['c']] : Tok))
        (([[['a']], [['b']], [['c']], [['a']], [['b']], [['c']]] :
            List Tok).zip
          ([[['a']], [['b']], [['c']], [['a']], [['b']], [['c']]] :
            List Tok).tail) ∧
    Main.pairAllowedW (([['▁']] : Tok), ([['a']] : Tok)) = true ∧
    cnt (([['a']] : Tok), ([['b']] : Tok))
        (([[['▁']], [['a']], [['b']], [['▁']], [['a']], [['b']]] :
            List Tok).zip
          ([[['▁']], [['a']], [['b']], [['▁']], [['a']], [['b']]] :
            List Tok).tail) ≤ 2 ∧
    firstIdx (([['▁']] : Tok), ([['a']] : Tok))
        (([[['▁']], [['a']], [['b']], [['▁']], [['a']], [['b']]] :
            List Tok).zip
          ([[['▁']], [['a']], [['b']], [['▁']], [['a']], [['b']]] :
            List Tok).tail) <
      firstIdx (([['a']] : Tok), ([['b']] : Tok))
        (([[['▁']], [['a']], [['b']], [['▁']], [['a']], [['b']]] :
            List Tok).zip
          ([[['▁']], [['a']], [['b']], [['▁']], [['a']], [['b']]] :
            List Tok).tail) ∧
    cnt (['b','c'] : Frag)
        (([[['a'],['b'],['c'],['a'],['b'],['c']]].map B.wordPairs).flatten) ≤ 2 ∧
    firstIdx (['a','b'] : Frag)
        (([[['a'],['b'],['c'],['a'],['b'],['c']]].map B.wordPairs).flatten) <
      firstIdx (['b','c'] : Frag)
        (([[['a'],['b'],['c'],['a'],['b'],['c']]].map B.wordPairs).flatten) :=
  ⟨(c2_selector_max_leftmost.1 ['c']
      [[['a']], [['b']], [['c']], [['a']], [['b']], [['c']]]
      (([['a']] : Tok), ([['b']] : Tok)) 2 (by decide) (by decide)).2.1
      (([['b']] : Tok), ([['c']] : Tok)),
   (c2_selector_max_leftmost.1 ['c']
      [[['a']], [['b']], [['c']], [['a']], [['b']], [['c']]]
      (([['a']] : Tok), ([['b']] : Tok)) 2 (by decide) (by decide)).2.2
      (([['b']] : Tok), ([['c']] : Tok)) (by decide) (by decide),
   (c2_selector_max_leftmost.2.1
      [[['▁']], [['a']], [['b']], [['▁']], [['a']], [['b']]]
      (([['▁']] : Tok), ([['a']] : Tok)) 2 (by decide)).1,
   (c2_selector_max_leftmost.2.1
      [[['▁']], [['a']], [['b']], [['▁']], [['a']], [['b']]]
      (([['▁']] : Tok), ([['a']] : Tok)) 2 (by decide)).2.2.1
      (([['a']] : Tok), ([['b']] : Tok)) (by decide),
   (c2_selector_max_leftmost.2.1
      [[['▁']], [['a']], [['b']], [['▁']], [['a']], [['b']]]
      (([['▁']] : Tok), ([['a']] : Tok)) 2 (by decide)).2.2.2
      (([['a']] : Tok), ([['b']] : Tok)) (by decide) (by decide) (by decide),
   (c2_selector_max_leftmost.2.2
      [[['a'],['b'],['c'],['a'],['b'],['c']]] ['a','b'] 2
      (by decide)).2.1 ['b','c'],
   (c2_selector_max_leftmost.2.2
      [[['a'],['b'],['c'],['a'],['b'],['c']]] ['a','b'] 2
      (by decide)).2.2 ['b','c'] (by decide) (by decide)⟩

/-- C5: in word-boundary mode, after any number of merge steps of main.py's
`bpe` starting from the word-boundary segmentation of any text, every
fragment in the reachable token sequence is a contiguous piece of a single
original word's block (that word's characters preceded by its leading
BoundaryMarker): no merge ever produces a fragment spanning the marker
between two words. -/
theorem c5_boundary_containment (text : List Char) (k : Nat) (t : Tok)
    (h : t ∈ (Main.loop ['w'] k (Main.initW text)).2) :
    ∃ w, w ∈ Main.pySplit text ∧
      ∃ l1 l2 : List Frag, blockOf w = l1 ++ t ++ l2 := by
  obtain ⟨gss, hflat, hf2, -⟩ :=
    loop_chunked (Main.pySplit text) k (Main.initW text) (init_chunked text)
  rw [hflat] at h
  obtain ⟨g, hg, htg⟩ := List.mem_flatten.mp h
  obtain ⟨b, hb, hgb⟩ := forall₂_mem_left hf2 g hg
  obtain ⟨g1, g2, hsplit⟩ := List.append_of_mem htg
  refine ⟨b, hb, g1.flatten, g2.flatten, ?_⟩
  rw [← hgb, hsplit]
  simp [List.flatten_append, List.flatten_cons, List.append_assoc]

theorem c5_witness :
    ∃ w, w ∈ Main.pySplit ['a','b',' ','c','d'] ∧
      ∃ l1 l2 : List Frag, blockOf w = l1 ++ ([['a']] : Tok) ++ l2 :=
  c5_boundary_containment ['a','b',' ','c','d'] 1 [['a']] (by decide)
